import Mathlib

/-!
# Verification of the Modelo-347 mail-merge core (`app.py`)

Shallow embedding of the pure core of the application:

* `normalize` — the fuzzy-comparison normalizer (`app.py` lines 53–66).
  The Python regexes are embedded as executable scanners over `List Char`:
  `subSuffix` models `_LEGAL_SUFFIXES.sub("", ·)` (leftmost, non-overlapping,
  alternatives tried in source order, `\b` = word-boundary with
  `\w = [A-Za-z0-9_]`), `substPunct` models `_PUNCTUATION.sub(" ", ·)`
  (each maximal run of punctuation becomes one space), `substSpaces` models
  `_SPACES.sub(" ", ·)`, and `stripL` models `str.strip()`.
  Word characters and whitespace are modelled over the ASCII range, matching
  the inputs the application processes.
* `run_matching` — the fuzzy matcher (lines 131–191), with
  `rapidfuzz.fuzz.token_sort_ratio` embedded exactly (token sort followed by
  the normalized Indel similarity, as an exact rational in [0,100]) and
  `rapidfuzz.process.extractOne` embedded as a first-wins maximum search.
* the dispatch loop of the send button handler (lines 556–614), with the
  e-mail transport, the wall clock and the concurrently written cancellation
  flag abstracted as oracles (`send`, `cancel`); `cancel` is indexed by the
  poll occurrence (two polls per loop iteration: one at the top, one at the
  throttle check).
* `split_pdf_by_cif` — the letter splitter (lines 72–125), with a page
  modelled by its extracted text (`List Char`).

Recursions that a witness has to evaluate inside the kernel are structural
(fuel-based where needed), so all definitions compute by `decide`/`rfl`.
-/

namespace EnviosMasivos

/-! ## Character classes (Python `\w`, `\s`, and the punctuation class) -/

/-- Python's `\w` over the ASCII range: letters, digits and the underscore. -/
def isWordChar (c : Char) : Bool := c.isAlphanum || c == '_'

/-- The character class of `_PUNCTUATION = [.,;:()\-_/\\]`. -/
def isPunctChar (c : Char) : Bool :=
  c == '.' || c == ',' || c == ';' || c == ':' || c == '(' || c == ')' ||
  c == '-' || c == '_' || c == '/' || c == '\\'

/-- Python's `\s` over the ASCII range (as `Char.isWhitespace`). -/
def isSpaceChar (c : Char) : Bool := c.isWhitespace

/-! ## `_LEGAL_SUFFIXES.sub("", text)` -/

/-- Case-insensitive literal match of a pattern against the front of the
text; returns the rest of the text on success.  The pattern letters are
lowercase, the text character is lowered before comparison, embedding the
`re.IGNORECASE` flag. -/
def matchPrefixCI : List Char → List Char → Option (List Char)
  | [], l => some l
  | _ :: _, [] => none
  | a :: as, c :: l => if c.toLower == a then matchPrefixCI as l else none

/-- Word-status of the first character (`false` at the end of the string),
used for the word-boundary test `\b`. -/
def headIsWord : List Char → Bool
  | [] => false
  | c :: _ => isWordChar c

/-- One alternative of the suffix regex: its literal characters and the
word-status of its final character (for the trailing `\b`). -/
def tryAlt (a : List Char) (lastW : Bool) (l : List Char) : Option (List Char × Bool) :=
  match matchPrefixCI a l with
  | some rest => if lastW != headIsWord rest then some (rest, lastW) else none
  | none => none

/-- Try the alternatives in order (regex alternation is leftmost-first; a
failed trailing `\b` backtracks into the next alternative). -/
def tryAlts : List (List Char × Bool) → List Char → Option (List Char × Bool)
  | [], _ => none
  | (a, w) :: more, l =>
    match tryAlt a w l with
    | some r => some r
    | none => tryAlts more l

/-- The alternatives of `\b(s\.l\.u\.|slu|s\.l\.|sl|s\.a\.|sa)\b` in source
order, each with the word-status of its last character. -/
def alts : List (List Char × Bool) :=
  [(['s', '.', 'l', '.', 'u', '.'], false),
   (['s', 'l', 'u'], true),
   (['s', '.', 'l', '.'], false),
   (['s', 'l'], true),
   (['s', '.', 'a', '.'], false),
   (['s', 'a'], true)]

/-- Fuelled scanner for `_LEGAL_SUFFIXES.sub("", ·)`: at each position whose
left context `pw` makes a word boundary, try the alternatives; on a match the
scan resumes after the matched text (the replacement is empty), with the left
context being the last matched character.  Fuel `≥ length` always suffices. -/
def subSuffixF : Nat → Bool → List Char → List Char
  | 0, _, l => l
  | _ + 1, _, [] => []
  | n + 1, pw, c :: l =>
    if pw != isWordChar c then
      match tryAlts alts (c :: l) with
      | some (rest, w) => subSuffixF n w rest
      | none => c :: subSuffixF n (isWordChar c) l
    else
      c :: subSuffixF n (isWordChar c) l

/-- `_LEGAL_SUFFIXES.sub("", ·)` with left context `pw` (`false` at the start
of the string). -/
def subSuffix (pw : Bool) (l : List Char) : List Char := subSuffixF l.length pw l

/-! ## `_PUNCTUATION.sub(" ", text)` and `_SPACES.sub(" ", text)` -/

/-- `_PUNCTUATION.sub(" ", ·)`: each maximal run of punctuation characters
becomes a single space.  `inRun` records whether the previous character was
part of a punctuation run. -/
def substPunct : Bool → List Char → List Char
  | _, [] => []
  | inRun, c :: l =>
    if isPunctChar c then
      if inRun then substPunct true l else ' ' :: substPunct true l
    else
      c :: substPunct false l

/-- `_SPACES.sub(" ", ·)`: each maximal run of whitespace becomes a single
space. -/
def substSpaces : Bool → List Char → List Char
  | _, [] => []
  | inRun, c :: l =>
    if isSpaceChar c then
      if inRun then substSpaces true l else ' ' :: substSpaces true l
    else
      c :: substSpaces false l

/-- `str.strip()`: drop leading and trailing whitespace. -/
def stripL (l : List Char) : List Char :=
  ((l.dropWhile isSpaceChar).reverse.dropWhile isSpaceChar).reverse

/-- `normalize` (`app.py` lines 60–66): lowercase, strip legal suffixes,
punctuation to spaces, collapse whitespace, strip. -/
def normalizeL (l : List Char) : List Char :=
  stripL (substSpaces false (substPunct false (subSuffix false (l.map Char.toLower))))

/-- `normalize` on `String`s. -/
def normalize (s : String) : String := ⟨normalizeL s.data⟩

/-! ## `rapidfuzz.fuzz.token_sort_ratio` and `rapidfuzz.process.extractOne`

`token_sort_ratio` splits both strings on whitespace, sorts the tokens,
joins them with single spaces and applies `fuzz.ratio`, the normalized
Indel similarity `100 * (1 - dist/(len1+len2))` with
`dist = len1 + len2 - 2 * lcs`.  The score is embedded as an exact
rational; `rapidfuzz` computes the same value in floating point. -/

/-- Split on whitespace runs, dropping empty tokens (Python `str.split()`),
accumulating the current token in reverse. -/
def wordsAux : List Char → List Char → List (List Char)
  | cur, [] => if cur.isEmpty then [] else [cur.reverse]
  | cur, c :: l =>
    if isSpaceChar c then
      if cur.isEmpty then wordsAux [] l else cur.reverse :: wordsAux [] l
    else
      wordsAux (c :: cur) l

/-- Lexicographic order on token character codes (Python string `<=`). -/
def lexLe : List Char → List Char → Bool
  | [], _ => true
  | _ :: _, [] => false
  | a :: as, b :: bs => if a = b then lexLe as bs else decide (a < b)

/-- Insertion into a sorted token list. -/
def insertTok (x : List Char) : List (List Char) → List (List Char)
  | [] => [x]
  | y :: ys => if lexLe x y then x :: y :: ys else y :: insertTok x ys

/-- Insertion sort of the token list (Python `sorted`). -/
def sortToks : List (List Char) → List (List Char)
  | [] => []
  | x :: xs => insertTok x (sortToks xs)

/-- The token-sort preprocessing: split, sort, join with single spaces. -/
def tokenSortPrep (l : List Char) : List Char :=
  List.intercalate [' '] (sortToks (wordsAux [] l))

/-- Fuelled length of a longest common subsequence; fuel
`≥ length a + length b` always suffices. -/
def lcsF : Nat → List Char → List Char → Nat
  | 0, _, _ => 0
  | n + 1, as', bs' =>
    match as', bs' with
    | [], _ => 0
    | _, [] => 0
    | a :: as, b :: bs =>
      if a = b then lcsF n as bs + 1
      else max (lcsF n (a :: as) bs) (lcsF n as (b :: bs))

/-- Length of a longest common subsequence of two character lists. -/
def lcsLen (a b : List Char) : Nat := lcsF (a.length + b.length) a b

/-- `fuzz.ratio`: the normalized Indel similarity scaled to [0, 100]
(`100` when both strings are empty). -/
def fuzzRatio (a b : List Char) : ℚ :=
  if a.length + b.length = 0 then 100
  else (200 * lcsLen a b : ℚ) / (a.length + b.length)

/-- `fuzz.token_sort_ratio`. -/
def token_sort_ratio (a b : String) : ℚ :=
  fuzzRatio (tokenSortPrep a.data) (tokenSortPrep b.data)

/-- `process.extractOne query choices scorer=token_sort_ratio` starting at
index `i`: the maximal score together with its index; on ties the first
choice wins (`rapidfuzz` keeps the earlier of equally scored choices).
Returns `none` exactly on an empty choice list. -/
def extractOneAux (q : String) : List String → Nat → Option (ℚ × Nat)
  | [], _ => none
  | c :: cs, i =>
    let sc := token_sort_ratio q c
    match extractOneAux q cs (i + 1) with
    | none => some (sc, i)
    | some (sc', i') => if sc < sc' then some (sc', i') else some (sc, i)

/-! ## `run_matching` (`app.py` lines 131–191) -/

/-- A row of the recipient table (`df` columns `Nombre`, `Email`,
`Dirección`). -/
structure Recipient where
  nombre : String
  email : String
  direccion : String
deriving DecidableEq

/-- Default row used for list indexing (never reached: `extractOne` indices
are always in range). -/
def dRec : Recipient := ⟨"", "", ""⟩

/-- Which column produced a match (`matched_by`: `"Nombre"`/`"Dirección"`). -/
inductive MatchedBy
  | nombre
  | direccion
deriving DecidableEq

/-- One entry of the `matches` list built by `run_matching`. -/
structure MatchResult where
  pdf_name : String
  cliente : String
  email : String
  score : ℚ
  matched_by : MatchedBy
  selected : Bool
  row_idx : Nat
deriving DecidableEq

/-- The address fallback of the matching loop (`app.py` lines 170–187):
accept the best address score only when it reaches 80. -/
def matchByDir (df : List Recipient) (p : String) (query : String) : Option MatchResult :=
  match extractOneAux query (df.map fun r => normalize r.direccion) 0 with
  | some (sc, i) =>
    if 80 ≤ sc then
      some ⟨p, (df.getD i dRec).nombre, (df.getD i dRec).email, sc, MatchedBy.direccion, true, i⟩
    else none
  | none => none

/-- The per-document body of the matching loop (`app.py` lines 147–189):
name search first, accepted at score ≥ 80; otherwise the address fallback. -/
def matchOne (df : List Recipient) (p : String) : Option MatchResult :=
  match extractOneAux (normalize p) (df.map fun r => normalize r.nombre) 0 with
  | some (sc, i) =>
    if 80 ≤ sc then
      some ⟨p, (df.getD i dRec).nombre, (df.getD i dRec).email, sc, MatchedBy.nombre, true, i⟩
    else matchByDir df p (normalize p)
  | none => matchByDir df p (normalize p)

/-- `run_matching`: fold the per-document matcher over the PDF names (the
dict iterates its keys in insertion order), splitting into `matches` and
`unmatched` while keeping the input order in both lists. -/
def run_matching (pdfs : List String) (df : List Recipient) : List MatchResult × List String :=
  match pdfs with
  | [] => ([], [])
  | p :: ps =>
    let r := run_matching ps df
    match matchOne df p with
    | some m => (m :: r.1, r.2)
    | none => (r.1, p :: r.2)

/-! ## The dispatch loop of the send-button handler (`app.py` lines 556–614)

The e-mail transport (`send_email` plus the PDF lookup inside the `try`) is
an oracle `send : Nat → Option String`: `none` means the send succeeded,
`some msg` means an exception whose `str(exc)` is `msg`.  The concurrently
written cancellation flag is an oracle `cancel : Nat → Bool` indexed by poll
occurrence: iteration `idx` polls it at occurrence `2*idx` (loop top, line
567) and `2*idx + 1` (throttle guard, line 609).  Timestamps and the UI are
external effects with no bearing on the claims and are not modelled. -/

/-- Outcome of one send (`Estado` column: `"Enviado"`/`"Error"`). -/
inductive Estado
  | enviado
  | error
deriving DecidableEq

/-- One row of the send log. -/
structure LogEntry where
  nombreArchivo : String
  emailDestino : String
  estado : Estado
  mensajeError : String
deriving DecidableEq

/-- The log entry appended for item `i` (lines 589–604): `Enviado` with an
empty error message on success, `Error` with the exception text on failure. -/
def mkEntry (send : Nat → Option String) (i : Nat) (m : MatchResult) : LogEntry :=
  match send i with
  | none => ⟨m.pdf_name, m.email, Estado.enviado, ""⟩
  | some msg => ⟨m.pdf_name, m.email, Estado.error, msg⟩

/-- The log the loop would produce for the given items starting at `i`. -/
def logOf (send : Nat → Option String) : Nat → List MatchResult → List LogEntry
  | _, [] => []
  | i, m :: ms => mkEntry send i m :: logOf send (i + 1) ms

/-- Result of one dispatch run: the accumulated log, whether the run ended
in the `Cancelled` state (the loop broke out at a poll), and the indices
after which a throttle pause was taken. -/
structure RunResult where
  log : List LogEntry
  cancelled : Bool
  pauses : List Nat
deriving DecidableEq

/-- The dispatch loop (lines 566–610) from item `idx` on: poll the
cancellation flag at the top of each iteration and break to `Cancelled`
when it is set; otherwise send, append the log entry, and pause iff this
is not the last item and the flag is not set at the throttle guard. -/
def dispatchAux (send : Nat → Option String) (cancel : Nat → Bool) (total : Nat) :
    Nat → List MatchResult → RunResult
  | _, [] => ⟨[], false, []⟩
  | idx, m :: rest =>
    if cancel (2 * idx) then ⟨[], true, []⟩
    else
      let tail := dispatchAux send cancel total (idx + 1) rest
      let doPause := decide (idx < total - 1) && !cancel (2 * idx + 1)
      ⟨mkEntry send idx m :: tail.log, tail.cancelled,
        if doPause then idx :: tail.pauses else tail.pauses⟩

/-- The pieces of `st.session_state` the send handler touches. -/
structure SessionState where
  sending : Bool
  cancel_requested : Bool
  send_log : List LogEntry
deriving DecidableEq

/-- The send-button handler (lines 556–614): on entry set `sending`, clear
the cancellation flag and the log; run the loop; store the accumulated log
and reset both flags regardless of how the loop ended. -/
def send_btn_run (_s : SessionState) (selected : List MatchResult)
    (send : Nat → Option String) (cancel : Nat → Bool) : SessionState × RunResult :=
  -- entry, lines 557–559: `sending := true`, `cancel_requested := false`,
  -- `send_log := []` — every modelled field of the prior state is overwritten
  -- (the loop reads the concurrently mutated cancellation flag through the
  -- `cancel` oracle, and `sending` only gates the start button in the UI)
  let r := dispatchAux send cancel selected.length 0 selected
  -- exit, lines 612–614: store the accumulated log, reset both flags
  (⟨false, false, r.log⟩, r)

/-! ## `split_pdf_by_cif` (`app.py` lines 72–125)

A page is modelled by its extracted text (`doc[i].get_text()`), so a
document is a `List (List Char)`; the sliced PDF bytes are represented by
the page span `(start, end)` of each letter. -/

/-- Python `needle in hay` (literal substring test). -/
def listContains (hay needle : List Char) : Bool :=
  (List.range (hay.length + 1)).any fun i => needle.isPrefixOf (hay.drop i)

/-- ASCII lowering of a line (Python `str.lower()`). -/
def lowerL (l : List Char) : List Char := l.map Char.toLower

/-- `texto.split("\n")` keeping empty pieces, accumulating in reverse. -/
def linesAux : List Char → List Char → List (List Char)
  | cur, [] => [cur.reverse]
  | cur, c :: l =>
    if c = '\n' then cur.reverse :: linesAux [] l else linesAux (c :: cur) l

/-- `[l.strip() for l in texto.split("\n") if l.strip()]`. -/
def linesOf (texto : List Char) : List (List Char) :=
  ((linesAux [] texto).map stripL).filter fun l => !l.isEmpty

/-- The client-name scan of lines 95–107: on each line try Pattern A
(`"ejercicio"` and `"es de:"` in the lowered line, next line exists and is
not exactly `"euros"`), then Pattern B (the CIF in the line, next line
exists and contains neither `"Muy Sr"` nor `"URANO"`); the first success
ends the scan with the following line.  (The `not nombre_cliente` guard in
the source is vacuous: the name is only ever set together with `break`.) -/
def scanNombre (cif : List Char) : List (List Char) → Option (List Char)
  | [] => none
  | l :: rest =>
    if listContains (lowerL l) "ejercicio".data && listContains (lowerL l) "es de:".data &&
        !rest.isEmpty && !(lowerL (rest.headD []) == "euros".data) then
      some (rest.headD [])
    else if listContains l cif && !rest.isEmpty &&
        !listContains (rest.headD []) "Muy Sr".data &&
        !listContains (rest.headD []) "URANO".data then
      some (rest.headD [])
    else
      scanNombre cif rest

/-- Zero-pad a number to at least three digits (Python `f"{n:03d}"`). -/
def pad3 (n : Nat) : String :=
  if n < 10 then "00" ++ toString n
  else if n < 100 then "0" ++ toString n
  else toString n

/-- The synthesized label `f"Cliente_{idx+1:03d}"` for 1-based number `n`. -/
def clienteLabel (n : Nat) : String := "Cliente_" ++ pad3 n

/-- Client-name inference for the letter with 0-based sequence number
`idx`: the scan result, or the synthesized `Cliente_NNN` label. -/
def inferNombre (cif : List Char) (lineas : List (List Char)) (idx : Nat) : List Char :=
  match scanNombre cif lineas with
  | some n => n
  | none => (clienteLabel (idx + 1)).data

/-- Characters stripped by `re.sub(r'[\\/*?:"<>|]', "", ·)` (line 113). -/
def isIllegalChar (c : Char) : Bool :=
  c == '\\' || c == '/' || c == '*' || c == '?' || c == ':' || c == '"' ||
  c == '<' || c == '>' || c == '|'

/-- Label sanitization (lines 113–115): drop illegal filename characters,
strip, truncate to 80 characters; fall back to `Cliente_NNN` when empty. -/
def sanitizeLabel (nombre : List Char) (idx : Nat) : List Char :=
  let t := (stripL (nombre.filter fun c => !isIllegalChar c)).take 80
  if t.isEmpty then (clienteLabel (idx + 1)).data else t

/-- The pages on which the CIF marker occurs (`indices_inicio`, line 78). -/
def letterStarts (doc : List (List Char)) (cif : List Char) : List Nat :=
  (List.range doc.length).filter fun i => listContains (doc.getD i []) cif

/-- Build the letters from the list of start pages (lines 87–122): letter
`k` spans from its start page to one page before the next start (or the
last page of the document), labelled by the inferred client name. -/
def buildLetters (doc : List (List Char)) (cif : List Char) :
    Nat → List Nat → List (List Char × Nat × Nat)
  | _, [] => []
  | k, s :: rest =>
    let ep := match rest with
      | [] => doc.length - 1
      | s2 :: _ => s2 - 1
    let nombre := inferNombre cif (linesOf (doc.getD s [])) k
    (sanitizeLabel nombre k, s, ep) :: buildLetters doc cif (k + 1) rest

/-- `split_pdf_by_cif`: the ordered list of letters, each as
`(label, start page, end page)`.  (The source then stores them in a dict
keyed by label, later keys overwriting earlier ones — the documented
collision quirk, outside the claims below.) -/
def split_pdf_by_cif (doc : List (List Char)) (cif : List Char) :
    List (List Char × Nat × Nat) :=
  buildLetters doc cif 0 (letterStarts doc cif)

/-- Modelled from the spec (§4.3 label inference, Pattern A): scan all the
lines for the first one containing both `"ejercicio"` and `"es de:"` whose
following line exists and is not exactly `"euros"`; the label is that
following line. -/
def scanASpec : List (List Char) → Option (List Char)
  | [] => none
  | l :: rest =>
    if listContains (lowerL l) "ejercicio".data && listContains (lowerL l) "es de:".data &&
        !rest.isEmpty && !(lowerL (rest.headD []) == "euros".data) then
      some (rest.headD [])
    else
      scanASpec rest

/-- Modelled from the spec (§4.3 label inference, Pattern B): at the first
line containing the marker — and only there — if a following line exists
and contains neither `"Muy Sr"` nor `"URANO"`, the label is that following
line. -/
def scanBSpec (cif : List Char) : List (List Char) → Option (List Char)
  | [] => none
  | l :: rest =>
    if listContains l cif then
      if !rest.isEmpty && !listContains (rest.headD []) "Muy Sr".data &&
          !listContains (rest.headD []) "URANO".data then
        some (rest.headD [])
      else none
    else
      scanBSpec cif rest

/-- Modelled from the spec (§4.3): label inference in which Pattern B is
used only as a fallback when Pattern A yielded no label anywhere on the
page; `Cliente_NNN` when neither pattern fires. -/
def inferNombreSpecAFirst (cif : List Char) (lineas : List (List Char)) (idx : Nat) :
    List Char :=
  match scanASpec lineas with
  | some n => n
  | none =>
    match scanBSpec cif lineas with
    | some n => n
    | none => (clienteLabel (idx + 1)).data

/-- Pattern A fires at line `i`: the lowered line contains `"ejercicio"`
and `"es de:"`, a following line exists, and that following line is not
exactly `"euros"` (case-insensitively). -/
def fireA (lineas : List (List Char)) (i : Nat) : Bool :=
  listContains (lowerL (lineas.getD i [])) "ejercicio".data &&
  listContains (lowerL (lineas.getD i [])) "es de:".data &&
  decide (i + 1 < lineas.length) &&
  !(lowerL (lineas.getD (i + 1) []) == "euros".data)

/-- Pattern B fires at line `i`: the line contains the marker, a following
line exists, and that following line contains neither `"Muy Sr"` nor
`"URANO"`. -/
def fireB (cif : List Char) (lineas : List (List Char)) (i : Nat) : Bool :=
  listContains (lineas.getD i []) cif &&
  decide (i + 1 < lineas.length) &&
  !listContains (lineas.getD (i + 1) []) "Muy Sr".data &&
  !listContains (lineas.getD (i + 1) []) "URANO".data

/-! ## Predicates used to reason about `normalize` (idempotence analysis) -/

/-- One of the word-ending suffix alternatives (`slu`, `sl`, `sa`) matches
with its trailing `\b` at the front of `l`. -/
def wAltFires (l : List Char) : Bool :=
  (tryAlt ['s', 'l', 'u'] true l).isSome ||
  (tryAlt ['s', 'l'] true l).isSome ||
  (tryAlt ['s', 'a'] true l).isSome

/-- No word-ending suffix alternative fires at any boundary position of the
scan of `l` with left context `pw`. -/
def scanCleanW : Bool → List Char → Bool
  | _, [] => true
  | pw, c :: l =>
    (!(pw != isWordChar c) || !wAltFires (c :: l)) && scanCleanW (isWordChar c) l

/-- No two adjacent whitespace characters. -/
def singleSpaced : List Char → Bool
  | [] => true
  | [_] => true
  | c :: d :: l => !(isSpaceChar c && isSpaceChar d) && singleSpaced (d :: l)

/-- The first character, if any, is not whitespace. -/
def headNotSpace : List Char → Bool
  | [] => true
  | c :: _ => !isSpaceChar c

/-! ## Lemmas about the dispatch loop -/

theorem logOf_length (send : Nat → Option String) :
    ∀ (l : List MatchResult) (i : Nat), (logOf send i l).length = l.length := by
  intro l
  induction l with
  | nil => intro i; rfl
  | cons m ms ih => intro i; simpa [logOf] using ih (i + 1)

theorem logOf_mem (send : Nat → Option String) :
    ∀ (l : List MatchResult) (i : Nat) (e : LogEntry), e ∈ logOf send i l →
      (e.estado = Estado.enviado ∧ e.mensajeError = "") ∨ e.estado = Estado.error := by
  intro l
  induction l with
  | nil => intro i e h; cases h
  | cons m ms ih =>
    intro i e h
    rcases List.mem_cons.1 h with he | he
    · subst he
      unfold mkEntry
      cases send i <;> simp
    · exact ih (i + 1) e he

theorem dispatchAux_no_cancel (send : Nat → Option String) (cancel : Nat → Bool)
    (total : Nat) (hc : ∀ j, cancel j = false) :
    ∀ (l : List MatchResult) (idx : Nat),
      (dispatchAux send cancel total idx l).log = logOf send idx l ∧
      (dispatchAux send cancel total idx l).cancelled = false ∧
      ∀ i, i ∈ (dispatchAux send cancel total idx l).pauses ↔
        (idx ≤ i ∧ i < idx + l.length ∧ i < total - 1) := by
  intro l
  induction l with
  | nil =>
    intro idx
    refine ⟨rfl, rfl, fun i => ?_⟩
    simp [dispatchAux]
    omega
  | cons m ms ih =>
    intro idx
    obtain ⟨hlog, hcan, hp⟩ := ih (idx + 1)
    have hc0 := hc (2 * idx)
    have hc1 := hc (2 * idx + 1)
    refine ⟨?_, ?_, fun i => ?_⟩
    · simp [dispatchAux, hc0, logOf, hlog]
    · simp [dispatchAux, hc0, hcan]
    · by_cases hlt : idx < total - 1
      · simp [dispatchAux, hc0, hc1, hlt, hp i]
        omega
      · simp [dispatchAux, hc0, hc1, hlt, hp i]
        omega

theorem dispatchAux_cancel_at (send : Nat → Option String) (cancel : Nat → Bool)
    (total : Nat) :
    ∀ (k : Nat) (l : List MatchResult) (idx : Nat), k < l.length →
      (∀ i, i < k → cancel (2 * (idx + i)) = false) → cancel (2 * (idx + k)) = true →
      (dispatchAux send cancel total idx l).log = logOf send idx (l.take k) ∧
      (dispatchAux send cancel total idx l).cancelled = true := by
  intro k
  induction k with
  | zero =>
    intro l idx hk _ hat
    match l, hk with
    | m :: ms, _ =>
      simp only [Nat.add_zero] at hat
      simp [dispatchAux, hat, logOf]
  | succ k ih =>
    intro l idx hk hbefore hat
    match l, hk with
    | m :: ms, hk =>
      have hc0 : cancel (2 * idx) = false := by simpa using hbefore 0 (Nat.succ_pos k)
      have htail := ih ms (idx + 1) (by simpa using hk)
        (fun i hi => by
          have := hbefore (i + 1) (by omega)
          simpa [Nat.add_assoc, Nat.add_comm 1 i] using this)
        (by
          have : idx + 1 + k = idx + (k + 1) := by omega
          rw [this]; exact hat)
      refine ⟨?_, ?_⟩
      · simp [dispatchAux, hc0, logOf, htail.1]
      · simp [dispatchAux, hc0, htail.2]

theorem dispatchAux_send_agree (cancel : Nat → Bool) (total : Nat) :
    ∀ (k : Nat) (l : List MatchResult) (idx : Nat) (send send' : Nat → Option String),
      (∀ i, i < k → cancel (2 * (idx + i)) = false) → cancel (2 * (idx + k)) = true →
      (∀ i, i < k → send' (idx + i) = send (idx + i)) →
      dispatchAux send' cancel total idx l = dispatchAux send cancel total idx l := by
  intro k
  induction k with
  | zero =>
    intro l idx send send' _ hat _
    cases l with
    | nil => rfl
    | cons m ms =>
      simp only [Nat.add_zero] at hat
      simp [dispatchAux, hat]
  | succ k ih =>
    intro l idx send send' hbefore hat hagree
    cases l with
    | nil => rfl
    | cons m ms =>
      have hc0 : cancel (2 * idx) = false := by simpa using hbefore 0 (Nat.succ_pos k)
      have h0 : send' idx = send idx := by simpa using hagree 0 (Nat.succ_pos k)
      have htail := ih ms (idx + 1) send send'
        (fun i hi => by
          have := hbefore (i + 1) (by omega)
          simpa [Nat.add_assoc, Nat.add_comm 1 i] using this)
        (by
          have he : idx + 1 + k = idx + (k + 1) := by omega
          rw [he]; exact hat)
        (fun i hi => by
          have := hagree (i + 1) (by omega)
          simpa [Nat.add_assoc, Nat.add_comm 1 i] using this)
      simp [dispatchAux, hc0, htail, mkEntry, h0]

/-- C3: before each item the loop polls the cancellation flag; once it is
observed set (at item `k`, all earlier top-of-loop polls returning unset),
the run ends in the Cancelled state, the log holds exactly the `k` entries
of the items processed before the poll, and no later item is sent: the
result does not depend on the transport outcomes of items `k` onward. -/
theorem dispatch_cancel_stops_run (sel : List MatchResult)
    (send : Nat → Option String) (cancel : Nat → Bool) (k : Nat)
    (hk : k < sel.length)
    (hbefore : ∀ i, i < k → cancel (2 * i) = false)
    (hat : cancel (2 * k) = true) :
    (dispatchAux send cancel sel.length 0 sel).cancelled = true ∧
    (dispatchAux send cancel sel.length 0 sel).log = logOf send 0 (sel.take k) ∧
    (dispatchAux send cancel sel.length 0 sel).log.length = k ∧
    ∀ send', (∀ i, i < k → send' i = send i) →
      dispatchAux send' cancel sel.length 0 sel = dispatchAux send cancel sel.length 0 sel := by
  have hb0 : ∀ i, i < k → cancel (2 * (0 + i)) = false := by
    intro i hi; simpa using hbefore i hi
  have hat0 : cancel (2 * (0 + k)) = true := by simpa using hat
  obtain ⟨hlog, hcan⟩ := dispatchAux_cancel_at send cancel sel.length k sel 0 hk hb0 hat0
  refine ⟨hcan, hlog, ?_, ?_⟩
  · rw [hlog, logOf_length, List.length_take]
    omega
  · intro send' hagree
    exact dispatchAux_send_agree cancel sel.length k sel 0 send send' hb0 hat0
      (fun i hi => by simpa using hagree i hi)

/-- Witness for C3, the spec scenario: five selected items, cancellation
first observed at the poll before item 2 — the log keeps exactly the two
entries for items 0 and 1 and the run ends Cancelled. -/
theorem dispatch_cancel_stops_run_witness :
    (dispatchAux (fun _ => none) (fun j => decide (4 ≤ j)) 5 0
        [⟨"a", "a", "a@x", 100, MatchedBy.nombre, true, 0⟩,
         ⟨"b", "b", "b@x", 100, MatchedBy.nombre, true, 1⟩,
         ⟨"c", "c", "c@x", 100, MatchedBy.nombre, true, 2⟩,
         ⟨"d", "d", "d@x", 100, MatchedBy.nombre, true, 3⟩,
         ⟨"e", "e", "e@x", 100, MatchedBy.nombre, true, 4⟩]).cancelled = true ∧
    (dispatchAux (fun _ => none) (fun j => decide (4 ≤ j)) 5 0
        [⟨"a", "a", "a@x", 100, MatchedBy.nombre, true, 0⟩,
         ⟨"b", "b", "b@x", 100, MatchedBy.nombre, true, 1⟩,
         ⟨"c", "c", "c@x", 100, MatchedBy.nombre, true, 2⟩,
         ⟨"d", "d", "d@x", 100, MatchedBy.nombre, true, 3⟩,
         ⟨"e", "e", "e@x", 100, MatchedBy.nombre, true, 4⟩]).log.length = 2 := by
  have h := dispatch_cancel_stops_run
    [⟨"a", "a", "a@x", 100, MatchedBy.nombre, true, 0⟩,
     ⟨"b", "b", "b@x", 100, MatchedBy.nombre, true, 1⟩,
     ⟨"c", "c", "c@x", 100, MatchedBy.nombre, true, 2⟩,
     ⟨"d", "d", "d@x", 100, MatchedBy.nombre, true, 3⟩,
     ⟨"e", "e", "e@x", 100, MatchedBy.nombre, true, 4⟩]
    (fun _ => none) (fun j => decide (4 ≤ j)) 2
    (by decide) (by decide) (by decide)
  exact ⟨h.1, h.2.2.1⟩

/-- C4: with no cancellation, a transport failure is logged as an Error
entry with the exception message and the run continues: the log has exactly
one entry per item in input order, each entry is Sent with an empty error
message or Error, the run completes, and the throttle pause is taken after
item `i` exactly when `i` is not the last item. -/
theorem dispatch_error_continues (sel : List MatchResult)
    (send : Nat → Option String) (cancel : Nat → Bool)
    (hc : ∀ j, cancel j = false) :
    (dispatchAux send cancel sel.length 0 sel).log = logOf send 0 sel ∧
    (dispatchAux send cancel sel.length 0 sel).log.length = sel.length ∧
    (dispatchAux send cancel sel.length 0 sel).cancelled = false ∧
    (∀ e ∈ (dispatchAux send cancel sel.length 0 sel).log,
      (e.estado = Estado.enviado ∧ e.mensajeError = "") ∨ e.estado = Estado.error) ∧
    ∀ i, i ∈ (dispatchAux send cancel sel.length 0 sel).pauses ↔ i < sel.length - 1 := by
  obtain ⟨hlog, hcan, hp⟩ := dispatchAux_no_cancel send cancel sel.length hc sel 0
  refine ⟨hlog, by rw [hlog, logOf_length], hcan, ?_, ?_⟩
  · intro e he
    rw [hlog] at he
    exact logOf_mem send sel 0 e he
  · intro i
    rw [hp i]
    omega

/-- Witness for C4, the spec scenario: four items, the transport raising on
item 2 — four log entries in order, item 2 an Error carrying the message,
the others Sent, pauses after items 0, 1 and 2 only, run Completed. -/
theorem dispatch_error_continues_witness :
    (dispatchAux (fun i => if i = 2 then some "boom" else none) (fun _ => false) 4 0
        [⟨"a", "a", "a@x", 100, MatchedBy.nombre, true, 0⟩,
         ⟨"b", "b", "b@x", 100, MatchedBy.nombre, true, 1⟩,
         ⟨"c", "c", "c@x", 100, MatchedBy.nombre, true, 2⟩,
         ⟨"d", "d", "d@x", 100, MatchedBy.nombre, true, 3⟩]).log =
      [⟨"a", "a@x", Estado.enviado, ""⟩, ⟨"b", "b@x", Estado.enviado, ""⟩,
       ⟨"c", "c@x", Estado.error, "boom"⟩, ⟨"d", "d@x", Estado.enviado, ""⟩] ∧
    (dispatchAux (fun i => if i = 2 then some "boom" else none) (fun _ => false) 4 0
        [⟨"a", "a", "a@x", 100, MatchedBy.nombre, true, 0⟩,
         ⟨"b", "b", "b@x", 100, MatchedBy.nombre, true, 1⟩,
         ⟨"c", "c", "c@x", 100, MatchedBy.nombre, true, 2⟩,
         ⟨"d", "d", "d@x", 100, MatchedBy.nombre, true, 3⟩]).cancelled = false ∧
    (dispatchAux (fun i => if i = 2 then some "boom" else none) (fun _ => false) 4 0
        [⟨"a", "a", "a@x", 100, MatchedBy.nombre, true, 0⟩,
         ⟨"b", "b", "b@x", 100, MatchedBy.nombre, true, 1⟩,
         ⟨"c", "c", "c@x", 100, MatchedBy.nombre, true, 2⟩,
         ⟨"d", "d", "d@x", 100, MatchedBy.nombre, true, 3⟩]).pauses = [0, 1, 2] := by
  have h := dispatch_error_continues
    [⟨"a", "a", "a@x", 100, MatchedBy.nombre, true, 0⟩,
     ⟨"b", "b", "b@x", 100, MatchedBy.nombre, true, 1⟩,
     ⟨"c", "c", "c@x", 100, MatchedBy.nombre, true, 2⟩,
     ⟨"d", "d", "d@x", 100, MatchedBy.nombre, true, 3⟩]
    (fun i => if i = 2 then some "boom" else none) (fun _ => false)
    (fun _ => rfl)
  exact ⟨h.1.trans (by decide), h.2.2.1, by decide⟩

/-- C9: the send handler clears the log accumulator on entry (the stored
log is exactly the run's own entries, independent of the prior session
state), and on exit — Completed or Cancelled alike — both `sending` and
`cancel_requested` are false. -/
theorem send_btn_resets_state (s : SessionState) (sel : List MatchResult)
    (send : Nat → Option String) (cancel : Nat → Bool) :
    (send_btn_run s sel send cancel).1.sending = false ∧
    (send_btn_run s sel send cancel).1.cancel_requested = false ∧
    (send_btn_run s sel send cancel).1.send_log =
      (dispatchAux send cancel sel.length 0 sel).log ∧
    ∀ s', (send_btn_run s sel send cancel).1.send_log =
      (send_btn_run s' sel send cancel).1.send_log :=
  ⟨rfl, rfl, rfl, fun _ => rfl⟩

/-! ## Lemmas about the matcher -/

theorem extractOneAux_bound (q : String) :
    ∀ (l : List String) (i : Nat) (sc : ℚ) (j : Nat),
      extractOneAux q l i = some (sc, j) → i ≤ j ∧ j < i + l.length := by
  intro l
  induction l with
  | nil => intro i sc j h; cases h
  | cons c cs ih =>
    intro i sc j h
    rw [extractOneAux] at h
    rcases hr : extractOneAux q cs (i + 1) with _ | ⟨sc', i'⟩ <;> rw [hr] at h
    · simp only [Option.some.injEq, Prod.mk.injEq] at h
      simp [← h.2]
    · obtain ⟨hi, hi'⟩ := ih (i + 1) sc' i' hr
      by_cases hlt : token_sort_ratio q c < sc' <;>
        simp only [hlt, if_true, if_false, Option.some.injEq, Prod.mk.injEq, if_pos, if_neg,
          not_false_iff] at h <;> simp [← h.2] <;> omega

theorem matchByDir_pdf_name (df : List Recipient) (p q : String) (m : MatchResult) :
    matchByDir df p q = some m → m.pdf_name = p := by
  intro hm
  rw [matchByDir] at hm
  split at hm
  · split at hm
    · cases hm; rfl
    · cases hm
  · cases hm

theorem matchOne_pdf_name (df : List Recipient) (p : String) (m : MatchResult) :
    matchOne df p = some m → m.pdf_name = p := by
  intro hm
  rw [matchOne] at hm
  split at hm
  · split at hm
    · cases hm; rfl
    · exact matchByDir_pdf_name df p (normalize p) m hm
  · exact matchByDir_pdf_name df p (normalize p) m hm

theorem run_matching_perm (df : List Recipient) :
    ∀ pdfs : List String,
      ((run_matching pdfs df).1.map MatchResult.pdf_name ++ (run_matching pdfs df).2).Perm
        pdfs := by
  intro pdfs
  induction pdfs with
  | nil => simp [run_matching]
  | cons p ps ih =>
    rcases hm : matchOne df p with _ | m
    · have : run_matching (p :: ps) df =
          ((run_matching ps df).1, p :: (run_matching ps df).2) := by
        simp [run_matching, hm]
      rw [this]
      exact (List.perm_middle).trans (ih.cons p)
    · have : run_matching (p :: ps) df =
          (m :: (run_matching ps df).1, (run_matching ps df).2) := by
        simp [run_matching, hm]
      rw [this]
      have hname := matchOne_pdf_name df p m hm
      simpa [hname] using ih.cons p

/-- C1: `run_matching` partitions the document identifiers: when the input
identifiers are distinct (they are dictionary keys), every input identifier
occurs exactly once among the match `pdf_name`s and the unmatched list taken
together, and nothing else occurs there. -/
theorem run_matching_partitions (pdfs : List String) (df : List Recipient)
    (h : pdfs.Nodup) :
    (∀ p ∈ pdfs,
      ((run_matching pdfs df).1.map MatchResult.pdf_name ++
        (run_matching pdfs df).2).count p = 1) ∧
    ∀ p, p ∉ pdfs →
      ((run_matching pdfs df).1.map MatchResult.pdf_name ++
        (run_matching pdfs df).2).count p = 0 := by
  have hperm := run_matching_perm df pdfs
  constructor
  · intro p hp
    rw [hperm.count_eq]
    exact List.count_eq_one_of_mem h hp
  · intro p hp
    rw [hperm.count_eq]
    exact List.count_eq_zero.2 hp

/-- Witness for C1: two distinct PDF names against a one-row table; "ab"
matches, "zq" does not, and each occurs exactly once across the two output
lists while an arbitrary other name occurs zero times. -/
theorem run_matching_partitions_witness :
    (((run_matching ["ab", "zq"] [⟨"ab", "ab@x", "dir"⟩]).1.map MatchResult.pdf_name ++
        (run_matching ["ab", "zq"] [⟨"ab", "ab@x", "dir"⟩]).2).count "ab" = 1) ∧
    (((run_matching ["ab", "zq"] [⟨"ab", "ab@x", "dir"⟩]).1.map MatchResult.pdf_name ++
        (run_matching ["ab", "zq"] [⟨"ab", "ab@x", "dir"⟩]).2).count "zq" = 1) ∧
    ((run_matching ["ab", "zq"] [⟨"ab", "ab@x", "dir"⟩]).1.map MatchResult.pdf_name ++
        (run_matching ["ab", "zq"] [⟨"ab", "ab@x", "dir"⟩]).2).count "nope" = 0 := by
  have h := run_matching_partitions ["ab", "zq"] [⟨"ab", "ab@x", "dir"⟩] (by decide)
  exact ⟨h.1 "ab" (by decide), h.1 "zq" (by decide), h.2 "nope" (by decide)⟩

/-- C10: with an empty recipient table the best-match search yields no
candidate, so `run_matching` returns no matches and reports every document
identifier as unmatched. -/
theorem run_matching_empty_recipients (pdfs : List String) (h : pdfs ≠ []) :
    (run_matching pdfs []).1 = [] ∧ (run_matching pdfs []).2 = pdfs := by
  clear h
  induction pdfs with
  | nil => exact ⟨rfl, rfl⟩
  | cons p ps ih =>
    have hm : matchOne [] p = none := rfl
    constructor
    · simp [run_matching, hm, ih.1]
    · simp [run_matching, hm, ih.2]

theorem getD_map_rec (g : Recipient → Recipient) :
    ∀ (l : List Recipient) (i : Nat), i < l.length →
      (l.map g).getD i dRec = g (l.getD i dRec) := by
  intro l
  induction l with
  | nil => intro i hi; cases hi
  | cons r rs ih =>
    intro i hi
    cases i with
    | zero => rfl
    | succ j => exact ih j (by simpa using hi)

theorem matchByDir_selected (df : List Recipient) (p q : String) (m : MatchResult) :
    matchByDir df p q = some m → m.selected = true := by
  intro hm
  rw [matchByDir] at hm
  split at hm
  · split at hm
    · cases hm; rfl
    · cases hm
  · cases hm

theorem matchOne_selected (df : List Recipient) (p : String) (m : MatchResult) :
    matchOne df p = some m → m.selected = true := by
  intro hm
  rw [matchOne] at hm
  split at hm
  · split at hm
    · cases hm; rfl
    · exact matchByDir_selected df p (normalize p) m hm
  · exact matchByDir_selected df p (normalize p) m hm

theorem run_matching_selected (df : List Recipient) :
    ∀ (pdfs : List String) (m : MatchResult),
      m ∈ (run_matching pdfs df).1 → m.selected = true := by
  intro pdfs
  induction pdfs with
  | nil => intro m hm; cases hm
  | cons p ps ih =>
    intro m hm
    rcases ho : matchOne df p with _ | m0
    · rw [show run_matching (p :: ps) df =
          ((run_matching ps df).1, p :: (run_matching ps df).2) by
        simp [run_matching, ho]] at hm
      exact ih m hm
    · rw [show run_matching (p :: ps) df =
          (m0 :: (run_matching ps df).1, (run_matching ps df).2) by
        simp [run_matching, ho]] at hm
      rcases List.mem_cons.1 hm with he | he
      · subst he; exact matchOne_selected df p m ho
      · exact ih m he

/-- C2: for each document identifier the matcher scores its normalized form
against the normalized recipient names first; a best name score of at least
80 yields a Name match recording the winning index and score (copying that
row's name and e-mail), and the recipients' addresses are then irrelevant to
the result; otherwise the normalized addresses are scored and an Address
match is produced exactly when that best score is at least 80; and every
newly created match — in `matchOne` and hence in `run_matching` — has
`selected = true`. -/
theorem matcher_threshold_decision (df : List Recipient) (p : String) :
    (∀ (sc : ℚ) (i : Nat),
      extractOneAux (normalize p) (df.map fun r => normalize r.nombre) 0 = some (sc, i) →
      80 ≤ sc →
      matchOne df p = some ⟨p, (df.getD i dRec).nombre, (df.getD i dRec).email, sc,
        MatchedBy.nombre, true, i⟩ ∧
      ∀ g : Recipient → String,
        matchOne (df.map fun r => ⟨r.nombre, r.email, g r⟩) p = matchOne df p) ∧
    ((extractOneAux (normalize p) (df.map fun r => normalize r.nombre) 0 = none ∨
      (∃ sc i, extractOneAux (normalize p) (df.map fun r => normalize r.nombre) 0 =
        some (sc, i) ∧ sc < 80)) →
      (∀ (sc : ℚ) (i : Nat),
        extractOneAux (normalize p) (df.map fun r => normalize r.direccion) 0 = some (sc, i) →
        (80 ≤ sc →
          matchOne df p = some ⟨p, (df.getD i dRec).nombre, (df.getD i dRec).email, sc,
            MatchedBy.direccion, true, i⟩) ∧
        (sc < 80 → matchOne df p = none))) ∧
    (∀ m : MatchResult, matchOne df p = some m → m.selected = true) ∧
    ∀ (pdfs : List String) (m : MatchResult),
      m ∈ (run_matching pdfs df).1 → m.selected = true := by
  have hfallback : ∀ hyp :
      extractOneAux (normalize p) (df.map fun r => normalize r.nombre) 0 = none ∨
      (∃ sc i, extractOneAux (normalize p) (df.map fun r => normalize r.nombre) 0 =
        some (sc, i) ∧ sc < 80),
      matchOne df p = matchByDir df p (normalize p) := by
    intro hyp
    rcases hyp with hn | ⟨sc, i, hs, hlt⟩
    · simp [matchOne, hn]
    · simp [matchOne, hs, not_le.2 hlt]
  refine ⟨?_, ?_, matchOne_selected df p, run_matching_selected df⟩
  · intro sc i h h80
    have hi : i < df.length := by
      have := (extractOneAux_bound (normalize p) _ 0 sc i h).2
      simpa using this
    constructor
    · simp [matchOne, h, h80]
    · intro g
      have hnn : ((df.map fun r => (⟨r.nombre, r.email, g r⟩ : Recipient)).map
          fun r => normalize r.nombre) = df.map fun r => normalize r.nombre := by
        simp [List.map_map]
      have hmap := getD_map_rec (fun r => (⟨r.nombre, r.email, g r⟩ : Recipient)) df i hi
      simp only [matchOne, hnn, h, h80, if_true, if_pos]
      rw [hmap]
  · intro hyp sc i h
    rw [hfallback hyp]
    constructor
    · intro h80
      simp [matchByDir, h, h80]
    · intro hlt
      simp [matchByDir, h, not_le.2 hlt]

/-- Witness for C2: a one-row table in which the name search scores 100 for
the document "ab": the Name branch fires with the winning index and score,
addresses are not consulted, and the created match is selected. -/
theorem matcher_threshold_decision_witness :
    matchOne [⟨"ab", "ab@x", "dir"⟩] "ab" =
      some ⟨"ab", "ab", "ab@x", 100, MatchedBy.nombre, true, 0⟩ ∧
    matchOne [⟨"ab", "ab@x", "other street"⟩] "ab" =
      some ⟨"ab", "ab", "ab@x", 100, MatchedBy.nombre, true, 0⟩ := by
  have h := (matcher_threshold_decision [⟨"ab", "ab@x", "dir"⟩] "ab").1 100 0
    (by with_unfolding_all decide) (by norm_num)
  refine ⟨h.1, ?_⟩
  have hg := h.2 fun _ => "other street"
  rw [show ([⟨"ab", "ab@x", "dir"⟩] : List Recipient).map
      (fun r => (⟨r.nombre, r.email, "other street"⟩ : Recipient)) =
      [⟨"ab", "ab@x", "other street"⟩] from rfl] at hg
  rw [hg, h.1]
  rfl

/-- Witness for C10: a non-empty document set against the empty table. -/
theorem run_matching_empty_recipients_witness :
    (run_matching ["a"] []).1 = [] ∧ (run_matching ["a"] []).2 = ["a"] :=
  run_matching_empty_recipients ["a"] (by decide)


/-! ## Lemmas about the letter splitter -/

theorem fireA_zero (l : List Char) (rest : List (List Char)) :
    fireA (l :: rest) 0 =
      (listContains (lowerL l) "ejercicio".data && listContains (lowerL l) "es de:".data &&
        !rest.isEmpty && !(lowerL (rest.headD []) == "euros".data)) := by
  cases rest <;> simp [fireA]

theorem fireB_zero (cif : List Char) (l : List Char) (rest : List (List Char)) :
    fireB cif (l :: rest) 0 =
      (listContains l cif && !rest.isEmpty &&
        !listContains (rest.headD []) "Muy Sr".data &&
        !listContains (rest.headD []) "URANO".data) := by
  cases rest <;> simp [fireB]

theorem fireA_cons_succ (l : List Char) (rest : List (List Char)) (j : Nat) :
    fireA (l :: rest) (j + 1) = fireA rest j := by
  simp [fireA, Nat.succ_lt_succ_iff]

theorem fireB_cons_succ (cif : List Char) (l : List Char) (rest : List (List Char)) (j : Nat) :
    fireB cif (l :: rest) (j + 1) = fireB cif rest j := by
  simp [fireB, Nat.succ_lt_succ_iff]

theorem scanNombre_none (cif : List Char) :
    ∀ lineas : List (List Char),
      (∀ j, j < lineas.length → fireA lineas j = false ∧ fireB cif lineas j = false) →
      scanNombre cif lineas = none := by
  intro lineas
  induction lineas with
  | nil => intro _; rfl
  | cons l rest ih =>
    intro h
    have h0 := h 0 (Nat.succ_pos _)
    have hA0 := (fireA_zero l rest).symm.trans h0.1
    have hB0 := (fireB_zero cif l rest).symm.trans h0.2
    simp only [scanNombre]
    rw [if_neg (by simp only [hA0]; exact Bool.false_ne_true),
      if_neg (by simp only [hB0]; exact Bool.false_ne_true)]
    exact ih fun j hj => by
      have := h (j + 1) (by simpa using hj)
      simpa [fireA_cons_succ, fireB_cons_succ] using this

theorem scanNombre_first_fire (cif : List Char) :
    ∀ (j : Nat) (lineas : List (List Char)),
      (fireA lineas j || fireB cif lineas j) = true →
      (∀ i, i < j → fireA lineas i = false ∧ fireB cif lineas i = false) →
      scanNombre cif lineas = some (lineas.getD (j + 1) []) := by
  intro j
  induction j with
  | zero =>
    intro lineas hfire _
    cases lineas with
    | nil => simp [fireA, fireB] at hfire
    | cons l rest =>
      rcases Bool.or_eq_true_iff.1 hfire with hA | hB
      · rw [fireA_zero] at hA
        simp only [scanNombre]
        rw [if_pos hA]
        cases rest <;> rfl
      · rw [fireB_zero] at hB
        by_cases hA : (listContains (lowerL l) "ejercicio".data &&
            listContains (lowerL l) "es de:".data &&
            !rest.isEmpty && !(lowerL (rest.headD []) == "euros".data)) = true
        · simp only [scanNombre]
          rw [if_pos hA]
          cases rest <;> rfl
        · simp only [scanNombre]
          rw [if_neg hA, if_pos hB]
          cases rest <;> rfl
  | succ j ih =>
    intro lineas hfire hbefore
    cases lineas with
    | nil => simp [fireA, fireB] at hfire
    | cons l rest =>
      have h0 := hbefore 0 (Nat.succ_pos _)
      have hA0 := (fireA_zero l rest).symm.trans h0.1
      have hB0 := (fireB_zero cif l rest).symm.trans h0.2
      simp only [scanNombre]
      rw [if_neg (by simp only [hA0]; exact Bool.false_ne_true),
      if_neg (by simp only [hB0]; exact Bool.false_ne_true)]
      exact ih rest (by simpa [fireA_cons_succ, fireB_cons_succ] using hfire)
        fun i hi => by
          have := hbefore (i + 1) (by omega)
          simpa [fireA_cons_succ, fireB_cons_succ] using this

/-- C8 counterexample: on a page whose marker line precedes the
"ejercicio … es de:" line, the code labels the letter from Pattern B even
though Pattern A would yield a label — Pattern B is not merely a fallback
for a failed Pattern A, contradicting the claim (the spec-modelled
A-first inference returns the other label). -/
theorem inferNombre_not_pattern_a_first :
    inferNombre "B73".data
      ["B73 intro".data, "Beta Corp".data,
       "el ejercicio total es de:".data, "Alpha SA".data] 0 = "Beta Corp".data ∧
    inferNombreSpecAFirst "B73".data
      ["B73 intro".data, "Beta Corp".data,
       "el ejercicio total es de:".data, "Alpha SA".data] 0 = "Alpha SA".data ∧
    "Beta Corp".data ≠ "Alpha SA".data := by
  refine ⟨by decide, by decide, by decide⟩

/-- C8 amended: label inference is a single left-to-right pass checking
Pattern A then Pattern B on each line; the first line where either pattern
fires supplies the label (its following line) — so an earlier Pattern B
line wins over a later Pattern A line — and when no line fires the label
is `Cliente_NNN` with the 1-based letter number zero-padded to 3 digits. -/
theorem inferNombre_first_firing_line (cif : List Char) (lineas : List (List Char))
    (idx : Nat) :
    ((∀ j, j < lineas.length → fireA lineas j = false ∧ fireB cif lineas j = false) →
      inferNombre cif lineas idx = (clienteLabel (idx + 1)).data) ∧
    ∀ j, (fireA lineas j || fireB cif lineas j) = true →
      (∀ i, i < j → fireA lineas i = false ∧ fireB cif lineas i = false) →
      inferNombre cif lineas idx = lineas.getD (j + 1) [] := by
  constructor
  · intro h
    rw [inferNombre, scanNombre_none cif lineas h]
  · intro j hf hb
    rw [inferNombre, scanNombre_first_fire cif j lineas hf hb]

/-- Witness for the amended C8: on the counterexample page the first firing
line is line 0 (via Pattern B), giving "Beta Corp"; on a page where nothing
fires the label is the synthesized `Cliente_001`. -/
theorem inferNombre_first_firing_line_witness :
    inferNombre "B73".data
      ["B73 intro".data, "Beta Corp".data,
       "el ejercicio total es de:".data, "Alpha SA".data] 0 = "Beta Corp".data ∧
    inferNombre "B73".data ["nada".data] 7 = "Cliente_008".data := by
  constructor
  · have h := (inferNombre_first_firing_line "B73".data
      ["B73 intro".data, "Beta Corp".data,
       "el ejercicio total es de:".data, "Alpha SA".data] 0).2 0 (by decide) (by decide)
    exact h.trans (by decide)
  · have h := (inferNombre_first_firing_line "B73".data ["nada".data] 7).1 (by decide)
    exact h.trans (by decide)

theorem buildLetters_spec (doc : List (List Char)) (cif : List Char) :
    ∀ (starts : List Nat) (k0 : Nat),
      (buildLetters doc cif k0 starts).length = starts.length ∧
      ∀ k, k < starts.length →
        ((buildLetters doc cif k0 starts).getD k ([], 0, 0)).2.1 = starts.getD k 0 ∧
        ((buildLetters doc cif k0 starts).getD k ([], 0, 0)).2.2 =
          if k + 1 < starts.length then starts.getD (k + 1) 0 - 1 else doc.length - 1 := by
  intro starts
  induction starts with
  | nil => intro k0; exact ⟨rfl, fun k hk => absurd hk (by simp)⟩
  | cons s rest ih =>
    intro k0
    refine ⟨by simpa [buildLetters] using ((ih (k0 + 1)).1), ?_⟩
    intro k hk
    cases k with
    | zero =>
      cases rest with
      | nil => exact ⟨rfl, by simp [buildLetters]⟩
      | cons s2 rest2 => exact ⟨rfl, by simp [buildLetters]⟩
    | succ k' =>
      have h := (ih (k0 + 1)).2 k' (by simpa using hk)
      refine ⟨h.1, ?_⟩
      have h2 := h.2
      simp only [List.length_cons, Nat.add_lt_add_iff_right, List.getD_cons_succ]
      exact h2

/-- C7: the splitter takes the ordered list of pages containing the marker
as letter starts; letter `k` spans from its start page to one page before
the next start, the last letter extending to the document's final page; and
with no marker occurrence the result is empty. -/
theorem split_spans (doc : List (List Char)) (cif : List Char) :
    (letterStarts doc cif = [] → split_pdf_by_cif doc cif = []) ∧
    (split_pdf_by_cif doc cif).length = (letterStarts doc cif).length ∧
    ∀ k, k < (letterStarts doc cif).length →
      ((split_pdf_by_cif doc cif).getD k ([], 0, 0)).2.1 = (letterStarts doc cif).getD k 0 ∧
      ((split_pdf_by_cif doc cif).getD k ([], 0, 0)).2.2 =
        if k + 1 < (letterStarts doc cif).length then (letterStarts doc cif).getD (k + 1) 0 - 1
        else doc.length - 1 := by
  obtain ⟨hl, hs⟩ := buildLetters_spec doc cif (letterStarts doc cif) 0
  refine ⟨fun h => ?_, hl, hs⟩
  rw [split_pdf_by_cif, h]
  rfl

/-- Witness for C7, the spec scenario: a six-page document with the marker
on pages 0 and 3 yields two letters spanning pages [0,2] and [3,5]; a
document without the marker yields no letters. -/
theorem split_spans_witness :
    ((split_pdf_by_cif ["MK c1".data, "x".data, "y".data, "MK c2".data, "z".data, "w".data]
        "MK".data).getD 0 ([], 0, 0)).2.1 = 0 ∧
    ((split_pdf_by_cif ["MK c1".data, "x".data, "y".data, "MK c2".data, "z".data, "w".data]
        "MK".data).getD 0 ([], 0, 0)).2.2 = 2 ∧
    ((split_pdf_by_cif ["MK c1".data, "x".data, "y".data, "MK c2".data, "z".data, "w".data]
        "MK".data).getD 1 ([], 0, 0)).2.1 = 3 ∧
    ((split_pdf_by_cif ["MK c1".data, "x".data, "y".data, "MK c2".data, "z".data, "w".data]
        "MK".data).getD 1 ([], 0, 0)).2.2 = 5 ∧
    (split_pdf_by_cif ["MK c1".data, "x".data, "y".data, "MK c2".data, "z".data, "w".data]
        "MK".data).length = 2 ∧
    split_pdf_by_cif ["nope".data] "MK".data = [] := by
  have h := split_spans ["MK c1".data, "x".data, "y".data, "MK c2".data, "z".data, "w".data]
    "MK".data
  have h0 := h.2.2 0 (by decide)
  have h1 := h.2.2 1 (by decide)
  refine ⟨h0.1.trans (by decide), h0.2.trans (by decide), h1.1.trans (by decide),
    h1.2.trans (by decide), h.2.1.trans (by decide),
    (split_spans ["nope".data] "MK".data).1 (by decide)⟩


/-! ## Evaluations of `normalize` at the disputed inputs -/

/-- C5: evaluation of the code at the spec's example.  The suffix regex's
trailing `\b` cannot match right after the final `.` of `"s.l."` (a word
boundary needs a word character on exactly one side, and both sides — the
`.` and the end of the string — are non-word), so `"Acme, S.L."` keeps its
suffix and normalizes to `"acme s l"`, while `"acme sl"` normalizes to
`"acme"`: the two normal forms differ, contradicting the claimed equality. -/
theorem normalize_acme_sl_eval :
    normalize "Acme, S.L." = "acme s l" ∧ normalize "acme sl" = "acme" ∧
    normalize "Acme, S.L." ≠ normalize "acme sl" :=
  ⟨by decide, by decide, by decide⟩

/-- C6 counterexample: `normalize` is not idempotent.  In `"_sl"` the
underscore is a word character for `\b` (so the suffix `"sl"` is protected
during the first pass) but is also in the punctuation class (so it then
becomes a space), leaving `"sl"` — which a second pass strips entirely. -/
theorem normalize_not_idempotent_underscore :
    normalize "_sl" = "sl" ∧ normalize (normalize "_sl") = "" ∧
    normalize (normalize "_sl") ≠ normalize "_sl" :=
  ⟨by decide, by decide, by decide⟩


/-! ## Character-level lemmas for the idempotence analysis of `normalize` -/

theorem toNat_ofNat_valid (n : Nat) (h : n < 55296) : (Char.ofNat n).toNat = n := by
  rw [Char.ofNat, dif_pos (Or.inl h)]
  rfl

theorem toLower_toNat (c : Char) :
    (¬(65 ≤ c.toNat ∧ c.toNat ≤ 90) ∧ c.toLower = c) ∨
    ((65 ≤ c.toNat ∧ c.toNat ≤ 90) ∧ c.toLower.toNat = c.toNat + 32) := by
  by_cases h : 65 ≤ c.toNat ∧ c.toNat ≤ 90
  · right
    refine ⟨h, ?_⟩
    rw [Char.toLower]
    rw [if_pos h]
    exact toNat_ofNat_valid _ (by omega)
  · left
    refine ⟨h, ?_⟩
    rw [Char.toLower]
    exact if_neg h

theorem toLower_idem (c : Char) : c.toLower.toLower = c.toLower := by
  rcases toLower_toNat c with ⟨_, hfix⟩ | ⟨_, hch⟩
  · rw [hfix, hfix]
  · rcases toLower_toNat c.toLower with ⟨_, hfix2⟩ | ⟨hr, _⟩
    · exact hfix2
    · omega

theorem le_val_iff {k : UInt32} {c : Char} : k ≤ c.val ↔ k.toNat ≤ c.toNat := by
  rw [UInt32.le_def, BitVec.le_def]
  exact Iff.rfl

theorem val_le_iff {k : UInt32} {c : Char} : c.val ≤ k ↔ c.toNat ≤ k.toNat := by
  rw [UInt32.le_def, BitVec.le_def]
  exact Iff.rfl

theorem isWordChar_of_range (c : Char) (h1 : 65 ≤ c.toNat) (h2 : c.toNat ≤ 90) :
    isWordChar c = true := by
  have hup : c.isUpper = true := by
    rw [Char.isUpper, Bool.and_eq_true, decide_eq_true_iff, decide_eq_true_iff]
    refine ⟨le_val_iff.2 ?_, val_le_iff.2 ?_⟩
    · rw [show (65 : UInt32).toNat = 65 from rfl]; exact h1
    · rw [show (90 : UInt32).toNat = 90 from rfl]; exact h2
  simp [isWordChar, Char.isAlphanum, Char.isAlpha, hup]

theorem toLower_fix_nonword (c : Char) (h : isWordChar c = false) : c.toLower = c := by
  rcases toLower_toNat c with ⟨_, hfix⟩ | ⟨⟨h1, h2⟩, _⟩
  · exact hfix
  · exact absurd (isWordChar_of_range c h1 h2) (by simp [h])

theorem word_of_toLower_word (c d : Char) (hd : isWordChar d = true) (h : c.toLower = d) :
    isWordChar c = true := by
  rcases toLower_toNat c with ⟨_, hfix⟩ | ⟨⟨h1, h2⟩, _⟩
  · rw [← hfix, h]
    exact hd
  · exact isWordChar_of_range c h1 h2

theorem eq_of_toLower_eq_low (c d : Char) (hd : d.toNat < 97) (h : c.toLower = d) :
    c = d := by
  rcases toLower_toNat c with ⟨_, hfix⟩ | ⟨⟨h1, h2⟩, hch⟩
  · rw [← h, hfix]
  · rw [h] at hch
    omega


/-! ## Structure of the suffix-regex scanner -/

theorem matchPrefixCI_length :
    ∀ (a l r : List Char), matchPrefixCI a l = some r → r.length + a.length = l.length := by
  intro a
  induction a with
  | nil => intro l r h; cases h; simp
  | cons x xs ih =>
    intro l r h
    cases l with
    | nil => cases h
    | cons c l' =>
      rw [matchPrefixCI] at h
      split at h
      · have := ih l' r h
        simp only [List.length_cons]
        omega
      · cases h

theorem matchPrefixCI_suffix :
    ∀ (a l r : List Char), matchPrefixCI a l = some r → r.IsSuffix l := by
  intro a
  induction a with
  | nil => intro l r h; cases h; exact List.suffix_refl _
  | cons x xs ih =>
    intro l r h
    cases l with
    | nil => cases h
    | cons c l' =>
      rw [matchPrefixCI] at h
      split at h
      · exact (ih l' r h).trans (List.suffix_cons c l')
      · cases h

theorem tryAlt_sound (a : List Char) (w : Bool) (l : List Char) (rest : List Char)
    (w' : Bool) (h : tryAlt a w l = some (rest, w')) :
    w' = w ∧ matchPrefixCI a l = some rest ∧ (w != headIsWord rest) = true := by
  rw [tryAlt] at h
  split at h
  · split at h
    · cases h
      rename_i r hr hb
      exact ⟨rfl, hr, hb⟩
    · cases h
  · cases h

theorem tryAlt_head_lower (a0 : Char) (t : List Char) (w : Bool) (l : List Char)
    (r : List Char × Bool) (h : tryAlt (a0 :: t) w l = some r) :
    ∃ c l', l = c :: l' ∧ c.toLower = a0 := by
  cases l with
  | nil => rw [tryAlt] at h; cases h
  | cons c l' =>
    refine ⟨c, l', rfl, ?_⟩
    by_cases hbeq : (c.toLower == a0) = true
    · exact beq_iff_eq.1 hbeq
    · rw [tryAlt, matchPrefixCI, if_neg hbeq] at h
      cases h

theorem tryAlts_sound :
    ∀ (L : List (List Char × Bool)) (l : List Char) (r : List Char × Bool),
      tryAlts L l = some r → ∃ p ∈ L, tryAlt p.1 p.2 l = some r := by
  intro L
  induction L with
  | nil => intro l r h; cases h
  | cons p more ih =>
    intro l r h
    rw [tryAlts] at h
    split at h
    · next heq => exact ⟨p, List.mem_cons_self p more, by rw [heq]; exact h⟩
    · obtain ⟨q, hq, hqa⟩ := ih l r h
      exact ⟨q, List.mem_cons_of_mem p hq, hqa⟩

theorem tryAlts_none_iff :
    ∀ (L : List (List Char × Bool)) (l : List Char),
      tryAlts L l = none ↔ ∀ p ∈ L, tryAlt p.1 p.2 l = none := by
  intro L
  induction L with
  | nil => intro l; simp [tryAlts]
  | cons p more ih =>
    intro l
    rw [tryAlts]
    constructor
    · intro h q hq
      rcases List.mem_cons.1 hq with he | he
      · subst he
        rcases hp : tryAlt q.1 q.2 l with _ | r
        · rfl
        · rw [show tryAlt q.1 q.2 l = tryAlt (q.1, q.2).1 (q.1, q.2).2 l by rfl] at hp
          rw [hp] at h
          cases h
      · rcases hp : tryAlt p.1 p.2 l with _ | r
        · rw [show tryAlt p.1 p.2 l = tryAlt (p.1, p.2).1 (p.1, p.2).2 l from rfl] at hp
          rw [hp] at h
          exact (ih l).1 h q he
        · rw [show tryAlt p.1 p.2 l = tryAlt (p.1, p.2).1 (p.1, p.2).2 l from rfl] at hp
          rw [hp] at h
          cases h
    · intro h
      have hp := h p (List.mem_cons_self p more)
      rw [show tryAlt p.1 p.2 l = tryAlt (p.1, p.2).1 (p.1, p.2).2 l from rfl] at hp
      rw [hp]
      exact (ih l).2 fun q hq => h q (List.mem_cons_of_mem p hq)

theorem alts_mem_head :
    ∀ p ∈ alts, p.1.headD ' ' = 's' ∧ p.1 ≠ [] ∧ 1 ≤ p.1.length := by decide

theorem tryAlts_length (l : List Char) (rest : List Char) (w : Bool)
    (h : tryAlts alts l = some (rest, w)) : rest.length < l.length := by
  obtain ⟨p, hp, hpa⟩ := tryAlts_sound alts l (rest, w) h
  obtain ⟨_, hm, _⟩ := tryAlt_sound p.1 p.2 l rest w hpa
  have hlen := matchPrefixCI_length p.1 l rest hm
  have := (alts_mem_head p hp).2.2
  omega

theorem tryAlts_head_word (l : List Char) (r : List Char × Bool)
    (h : tryAlts alts l = some r) : ∃ c l', l = c :: l' ∧ isWordChar c = true := by
  obtain ⟨p, hp, hpa⟩ := tryAlts_sound alts l r h
  obtain ⟨hh, hne, _⟩ := alts_mem_head p hp
  rcases hp1 : p.1 with _ | ⟨a0, t⟩
  · exact absurd hp1 hne
  · rw [hp1] at hpa
    obtain ⟨c, l', hl, hcl⟩ := tryAlt_head_lower a0 t p.2 l r hpa
    have ha0 : a0 = 's' := by rw [hp1] at hh; exact hh
    refine ⟨c, l', hl, ?_⟩
    exact word_of_toLower_word c 's' (by decide) (ha0 ▸ hcl)

theorem subSuffixF_congr :
    ∀ (m : Nat) (l : List Char) (pw : Bool) (n : Nat), l.length ≤ m → l.length ≤ n →
      subSuffixF m pw l = subSuffixF n pw l := by
  intro m
  induction m with
  | zero =>
    intro l pw n hm _
    have : l = [] := List.length_eq_zero.1 (Nat.le_zero.1 hm)
    subst this
    cases n <;> rfl
  | succ m ih =>
    intro l pw n hm hn
    cases l with
    | nil => cases n <;> rfl
    | cons c l' =>
      cases n with
      | zero => simp at hn
      | succ k =>
        rw [subSuffixF, subSuffixF]
        rcases ht : tryAlts alts (c :: l') with _ | ⟨rest, w⟩
        · simp only [List.length_cons] at hm hn
          by_cases hb : (pw != isWordChar c) = true <;>
            simp [hb, ih l' (isWordChar c) k (by omega) (by omega)]
        · have hlen := tryAlts_length (c :: l') rest w ht
          simp only [List.length_cons] at hm hn hlen
          by_cases hb : (pw != isWordChar c) = true <;>
            simp [hb, ih rest w k (by omega) (by omega),
              ih l' (isWordChar c) k (by omega) (by omega)]

theorem subSuffix_cons (pw : Bool) (c : Char) (l : List Char) :
    subSuffix pw (c :: l) =
      if pw != isWordChar c then
        match tryAlts alts (c :: l) with
        | some (rest, w) => subSuffix w rest
        | none => c :: subSuffix (isWordChar c) l
      else c :: subSuffix (isWordChar c) l := by
  rw [subSuffix, show (c :: l).length = l.length + 1 from rfl, subSuffixF]
  rcases ht : tryAlts alts (c :: l) with _ | ⟨rest, w⟩
  · rfl
  · have hlen := tryAlts_length (c :: l) rest w ht
    simp only [List.length_cons] at hlen
    by_cases hb : (pw != isWordChar c) = true <;>
      simp [hb, subSuffix, subSuffixF_congr l.length rest w rest.length (by omega) le_rfl]

theorem subSuffix_nil (pw : Bool) : subSuffix pw [] = [] := rfl

theorem subSuffix_true_cons (c : Char) (l : List Char) :
    subSuffix true (c :: l) = c :: subSuffix (isWordChar c) l := by
  rw [subSuffix_cons]
  by_cases hw : isWordChar c = true
  · simp [hw]
  · have hfail : tryAlts alts (c :: l) = none := by
      rcases ht : tryAlts alts (c :: l) with _ | r
      · rfl
      · obtain ⟨d, l', he, hword⟩ := tryAlts_head_word (c :: l) r ht
        cases he
        exact absurd hword hw
    simp [hw, hfail]

theorem headIsWord_subSuffix_true (l : List Char) :
    headIsWord (subSuffix true l) = headIsWord l := by
  cases l with
  | nil => rfl
  | cons c l' => rw [subSuffix_true_cons]; rfl


/-! ## The scan of the suffix regex leaves no firing word-alternative -/

theorem tryAlt_s_head_none (c : Char) (hc : isWordChar c = false)
    (t' : List Char) (w : Bool) (t : List Char) :
    tryAlt ('s' :: t') w (c :: t) = none := by
  rcases h : tryAlt ('s' :: t') w (c :: t) with _ | r
  · rfl
  · obtain ⟨d, l', he, hlow⟩ := tryAlt_head_lower 's' t' w (c :: t) r h
    cases he
    exact absurd (word_of_toLower_word c 's' (by decide) hlow) (by simp [hc])

theorem wAltFires_head_nonword (c : Char) (hc : isWordChar c = false) (t : List Char) :
    wAltFires (c :: t) = false := by
  simp [wAltFires, tryAlt_s_head_none c hc]

theorem matchPrefixCI_subSuffix_true :
    ∀ (a : List Char), (∀ d ∈ a, isWordChar d = true) →
      ∀ l, matchPrefixCI a (subSuffix true l) =
        Option.map (subSuffix true) (matchPrefixCI a l) := by
  intro a
  induction a with
  | nil => intro _ l; rfl
  | cons x xs ih =>
    intro ha l
    cases l with
    | nil => rfl
    | cons c l' =>
      rw [subSuffix_true_cons, matchPrefixCI, matchPrefixCI]
      by_cases hbeq : (c.toLower == x) = true
      · have hx : isWordChar x = true := ha x (List.mem_cons_self x xs)
        have hc : isWordChar c = true :=
          word_of_toLower_word c x hx (beq_iff_eq.1 hbeq)
        rw [if_pos hbeq, if_pos hbeq, hc]
        exact ih (fun d hd => ha d (List.mem_cons_of_mem x hd)) l'
      · rw [if_neg hbeq, if_neg hbeq]
        rfl

theorem tryAlt_subSuffix_true (a : List Char) (ha : ∀ d ∈ a, isWordChar d = true)
    (l : List Char) :
    (tryAlt a true (subSuffix true l)).isSome = (tryAlt a true l).isSome := by
  rw [tryAlt, tryAlt, matchPrefixCI_subSuffix_true a ha l]
  rcases hm : matchPrefixCI a l with _ | r
  · rfl
  · show (if (true != headIsWord (subSuffix true r)) = true then
        some (subSuffix true r, true) else none).isSome =
      (if (true != headIsWord r) = true then some (r, true) else none).isSome
    rw [headIsWord_subSuffix_true]
    by_cases hb : (true != headIsWord r) = true
    · rw [if_pos hb, if_pos hb]
      rfl
    · rw [if_neg hb, if_neg hb]

theorem wAltFires_subSuffix_true (l : List Char) :
    wAltFires (subSuffix true l) = wAltFires l := by
  rw [wAltFires, wAltFires,
    tryAlt_subSuffix_true ['s', 'l', 'u'] (by decide) l,
    tryAlt_subSuffix_true ['s', 'l'] (by decide) l,
    tryAlt_subSuffix_true ['s', 'a'] (by decide) l]

theorem wAltFires_false_of_tryAlts_none (l : List Char) (h : tryAlts alts l = none) :
    wAltFires l = false := by
  have h' := (tryAlts_none_iff alts l).1 h
  have h1 := h' (['s', 'l', 'u'], true) (by decide)
  have h2 := h' (['s', 'l'], true) (by decide)
  have h3 := h' (['s', 'a'], true) (by decide)
  simp only at h1 h2 h3
  simp [wAltFires, h1, h2, h3]

theorem scanCleanW_subSuffix :
    ∀ (n : Nat) (l : List Char), l.length ≤ n → ∀ pw,
      scanCleanW pw (subSuffix pw l) = true := by
  intro n
  induction n with
  | zero =>
    intro l hl pw
    have : l = [] := List.length_eq_zero.1 (Nat.le_zero.1 hl)
    subst this
    rfl
  | succ n ih =>
    intro l hl pw
    cases l with
    | nil => rfl
    | cons c l' =>
      have hl' : l'.length ≤ n := by
        simp only [List.length_cons] at hl
        omega
      rw [subSuffix_cons]
      rcases ht : tryAlts alts (c :: l') with _ | ⟨rest, w⟩
      · by_cases hb : (pw != isWordChar c) = true
        · rw [if_pos hb]
          show scanCleanW pw (c :: subSuffix (isWordChar c) l') = true
          rw [scanCleanW]
          rw [Bool.and_eq_true]
          refine ⟨?_, ih l' hl' (isWordChar c)⟩
          have hwf : wAltFires (c :: subSuffix (isWordChar c) l') = false := by
            by_cases hw : isWordChar c = true
            · rw [show c :: subSuffix (isWordChar c) l' = subSuffix true (c :: l') from
                (subSuffix_true_cons c l').symm, wAltFires_subSuffix_true]
              exact wAltFires_false_of_tryAlts_none (c :: l') ht
            · exact wAltFires_head_nonword c (Bool.not_eq_true _ ▸ hw) _
          simp [hwf]
        · rw [if_neg hb]
          rw [scanCleanW]
          have hbf : (pw != isWordChar c) = false := Bool.not_eq_true _ ▸ hb
          rw [Bool.and_eq_true]
          exact ⟨by simp [hbf], ih l' hl' (isWordChar c)⟩
      · have hlen := tryAlts_length (c :: l') rest w ht
        simp only [List.length_cons] at hlen
        obtain ⟨d, l'', he, hword⟩ := tryAlts_head_word (c :: l') (rest, w) ht
        have hcw : isWordChar c = true := by cases he; exact hword
        by_cases hb : (pw != isWordChar c) = true
        · rw [if_pos hb]
          show scanCleanW pw (subSuffix w rest) = true
          have hpw : pw = false := by
            rw [hcw] at hb
            cases pw
            · rfl
            · simp at hb
          cases w with
          | false =>
            rw [hpw]
            exact ih rest (by omega) false
          | true =>
            obtain ⟨p, hp, hpa⟩ := tryAlts_sound alts (c :: l') (rest, true) ht
            obtain ⟨hw', _, hbnd⟩ := tryAlt_sound p.1 p.2 (c :: l') rest true hpa
            rw [← hw'] at hbnd
            have hrest : headIsWord rest = false := by
              cases hhr : headIsWord rest
              · rfl
              · rw [hhr] at hbnd
                simp at hbnd
            cases rest with
            | nil => rw [subSuffix_nil]; rfl
            | cons e rest' =>
              have hew : isWordChar e = false := hrest
              rw [subSuffix_true_cons, hew, scanCleanW]
              rw [Bool.and_eq_true]
              refine ⟨?_, ?_⟩
              · have hwf := wAltFires_head_nonword e hew (subSuffix false rest')
                simp [hwf]
              · rw [hew]
                exact ih rest' (by simp at hlen; omega) false
        · rw [if_neg hb]
          show scanCleanW pw (c :: subSuffix (isWordChar c) l') = true
          rw [scanCleanW]
          have hbf : (pw != isWordChar c) = false := Bool.not_eq_true _ ▸ hb
          rw [Bool.and_eq_true]
          exact ⟨by simp [hbf], ih l' hl' (isWordChar c)⟩

theorem scanCleanW_subSuffix_self (pw : Bool) (l : List Char) :
    scanCleanW pw (subSuffix pw l) = true :=
  scanCleanW_subSuffix l.length l le_rfl pw


/-! ## Transfer of the no-firing-alternative property through the later
normalization stages -/

theorem isPunctChar_cases (c : Char) (h : isPunctChar c = true) :
    c = '.' ∨ c = ',' ∨ c = ';' ∨ c = ':' ∨ c = '(' ∨ c = ')' ∨
    c = '-' ∨ c = '_' ∨ c = '/' ∨ c = '\\' := by
  simp only [isPunctChar, Bool.or_eq_true, beq_iff_eq] at h
  tauto

theorem punct_nonword (c : Char) (h : isPunctChar c = true) (hne : c ≠ '_') :
    isWordChar c = false := by
  rcases isPunctChar_cases c h with h | h | h | h | h | h | h | h | h | h <;>
    first
      | (subst h; decide)
      | exact absurd h hne

theorem space_nonword (c : Char) (h : isSpaceChar c = true) : isWordChar c = false := by
  simp only [isSpaceChar, Char.isWhitespace, Bool.or_eq_true, decide_eq_true_iff] at h
  rcases h with ((h | h) | h) | h <;> subst h <;> decide

theorem substPunct_cons_punct (c : Char) (l : List Char) (hc : isPunctChar c = true) :
    substPunct false (c :: l) = ' ' :: substPunct true l ∧
    substPunct true (c :: l) = substPunct true l := by
  constructor <;> simp [substPunct, hc]

theorem substPunct_cons_nonpunct (c : Char) (l : List Char) (hc : isPunctChar c = false) :
    substPunct false (c :: l) = c :: substPunct false l ∧
    substPunct true (c :: l) = c :: substPunct false l := by
  constructor <;> simp [substPunct, hc]

theorem matchPrefixCI_substPunct :
    ∀ (a : List Char), (∀ d ∈ a, isWordChar d = true ∧ isPunctChar d = false) →
      ∀ l : List Char, '_' ∉ l →
        matchPrefixCI a (substPunct false l) =
          Option.map (substPunct false) (matchPrefixCI a l) := by
  intro a
  induction a with
  | nil => intro _ l _; rfl
  | cons x xs ih =>
    intro ha l hu
    cases l with
    | nil => rfl
    | cons c l' =>
      have hu' : '_' ∉ l' := fun h => hu (List.mem_cons_of_mem c h)
      have hcu : c ≠ '_' := fun h => hu (h ▸ List.mem_cons_self c l')
      have hx := ha x (List.mem_cons_self x xs)
      by_cases hc : isPunctChar c = true
      · have hcw : isWordChar c = false := punct_nonword c hc hcu
        rw [(substPunct_cons_punct c l' hc).1, matchPrefixCI, matchPrefixCI]
        have h1 : (Char.toLower ' ' == x) = false := by
          rw [beq_eq_false_iff_ne]
          intro he
          exact absurd (word_of_toLower_word ' ' x hx.1 he) (by decide)
        have h2 : (c.toLower == x) = false := by
          rw [beq_eq_false_iff_ne]
          intro he
          exact absurd (word_of_toLower_word c x hx.1 he) (by simp [hcw])
        rw [h1, h2]
        rfl
      · rw [(substPunct_cons_nonpunct c l' (Bool.not_eq_true _ ▸ hc)).1,
          matchPrefixCI, matchPrefixCI]
        by_cases hbeq : (c.toLower == x) = true
        · rw [hbeq]
          exact ih (fun d hd => ha d (List.mem_cons_of_mem x hd)) l' hu'
        · have hbf : (c.toLower == x) = false := by simpa using hbeq
          rw [hbf]
          rfl

theorem headIsWord_substPunct (r : List Char) (hu : '_' ∉ r) :
    headIsWord (substPunct false r) = headIsWord r := by
  cases r with
  | nil => rfl
  | cons c r' =>
    have hcu : c ≠ '_' := fun h => hu (h ▸ List.mem_cons_self c r')
    by_cases hc : isPunctChar c = true
    · rw [(substPunct_cons_punct c r' hc).1]
      show isWordChar ' ' = isWordChar c
      rw [punct_nonword c hc hcu]
      decide
    · rw [(substPunct_cons_nonpunct c r' (Bool.not_eq_true _ ▸ hc)).1]
      rfl

theorem tryAlt_substPunct (a : List Char)
    (ha : ∀ d ∈ a, isWordChar d = true ∧ isPunctChar d = false)
    (l : List Char) (hu : '_' ∉ l) :
    (tryAlt a true (substPunct false l)).isSome = (tryAlt a true l).isSome := by
  rw [tryAlt, tryAlt, matchPrefixCI_substPunct a ha l hu]
  rcases hm : matchPrefixCI a l with _ | r
  · rfl
  · have hur : '_' ∉ r := fun h => hu ((matchPrefixCI_suffix a l r hm).subset h)
    show (if (true != headIsWord (substPunct false r)) = true then
        some (substPunct false r, true) else none).isSome =
      (if (true != headIsWord r) = true then some (r, true) else none).isSome
    rw [headIsWord_substPunct r hur]
    by_cases hb : (true != headIsWord r) = true
    · rw [if_pos hb, if_pos hb]
      rfl
    · rw [if_neg hb, if_neg hb]

theorem wAltFires_substPunct (l : List Char) (hu : '_' ∉ l) :
    wAltFires (substPunct false l) = wAltFires l := by
  rw [wAltFires, wAltFires,
    tryAlt_substPunct ['s', 'l', 'u'] (by decide) l hu,
    tryAlt_substPunct ['s', 'l'] (by decide) l hu,
    tryAlt_substPunct ['s', 'a'] (by decide) l hu]


theorem scanCleanW_substPunct :
    ∀ l : List Char, '_' ∉ l →
      (∀ pw, scanCleanW pw l = true → scanCleanW pw (substPunct false l) = true) ∧
      (scanCleanW false l = true → scanCleanW false (substPunct true l) = true) := by
  intro l
  induction l with
  | nil => intro _; exact ⟨fun _ _ => rfl, fun _ => rfl⟩
  | cons c l' ih =>
    intro hu
    have hu' : '_' ∉ l' := fun h => hu (List.mem_cons_of_mem c h)
    have hcu : c ≠ '_' := fun h => hu (h ▸ List.mem_cons_self c l')
    obtain ⟨ih1, ih2⟩ := ih hu'
    by_cases hc : isPunctChar c = true
    · have hcw : isWordChar c = false := punct_nonword c hc hcu
      have part1 : ∀ pw, scanCleanW pw (c :: l') = true →
          scanCleanW pw (substPunct false (c :: l')) = true := by
        intro pw hs
        rw [scanCleanW, Bool.and_eq_true] at hs
        have htail : scanCleanW false l' = true := by
          have h2 := hs.2
          rwa [hcw] at h2
        rw [(substPunct_cons_punct c l' hc).1, scanCleanW, Bool.and_eq_true]
        refine ⟨?_, ?_⟩
        · have hwf := wAltFires_head_nonword ' ' (by decide) (substPunct true l')
          simp [hwf]
        · show scanCleanW (isWordChar ' ') (substPunct true l') = true
          rw [show isWordChar ' ' = false by decide]
          exact ih2 htail
      refine ⟨part1, ?_⟩
      intro hs
      rw [scanCleanW, Bool.and_eq_true] at hs
      have htail : scanCleanW false l' = true := by
        have h2 := hs.2
        rwa [hcw] at h2
      rw [(substPunct_cons_punct c l' hc).2]
      exact ih2 htail
    · have hcf : isPunctChar c = false := by simpa using hc
      have part1 : ∀ pw, scanCleanW pw (c :: l') = true →
          scanCleanW pw (substPunct false (c :: l')) = true := by
        intro pw hs
        rw [scanCleanW, Bool.and_eq_true] at hs
        rw [(substPunct_cons_nonpunct c l' hcf).1, scanCleanW, Bool.and_eq_true]
        refine ⟨?_, ih1 (isWordChar c) hs.2⟩
        by_cases hb : (pw != isWordChar c) = true
        · have hwf : wAltFires (c :: l') = false := by
            have hs1 := hs.1
            rw [Bool.or_eq_true] at hs1
            rcases hs1 with h1 | h1
            · exfalso
              rw [hb] at h1
              simp at h1
            · simpa using h1
          have heq : wAltFires (c :: substPunct false l') = wAltFires (c :: l') := by
            rw [show c :: substPunct false l' = substPunct false (c :: l') from
              ((substPunct_cons_nonpunct c l' hcf).1).symm]
            exact wAltFires_substPunct (c :: l') hu
          rw [heq]
          simp [hwf]
        · have hbf : (pw != isWordChar c) = false := by simpa using hb
          simp [hbf]
      refine ⟨part1, ?_⟩
      intro hs
      rw [show substPunct true (c :: l') = substPunct false (c :: l') from
        ((substPunct_cons_nonpunct c l' hcf).2).trans
          ((substPunct_cons_nonpunct c l' hcf).1).symm]
      exact part1 false hs


theorem substSpaces_cons_space (c : Char) (l : List Char) (hc : isSpaceChar c = true) :
    substSpaces false (c :: l) = ' ' :: substSpaces true l ∧
    substSpaces true (c :: l) = substSpaces true l := by
  constructor <;> simp [substSpaces, hc]

theorem substSpaces_cons_nonspace (c : Char) (l : List Char) (hc : isSpaceChar c = false) :
    substSpaces false (c :: l) = c :: substSpaces false l ∧
    substSpaces true (c :: l) = c :: substSpaces false l := by
  constructor <;> simp [substSpaces, hc]

theorem matchPrefixCI_substSpaces :
    ∀ (a : List Char), (∀ d ∈ a, isWordChar d = true) →
      ∀ l : List Char,
        matchPrefixCI a (substSpaces false l) =
          Option.map (substSpaces false) (matchPrefixCI a l) := by
  intro a
  induction a with
  | nil => intro _ l; rfl
  | cons x xs ih =>
    intro ha l
    cases l with
    | nil => rfl
    | cons c l' =>
      have hx := ha x (List.mem_cons_self x xs)
      by_cases hc : isSpaceChar c = true
      · have hcw : isWordChar c = false := space_nonword c hc
        rw [(substSpaces_cons_space c l' hc).1, matchPrefixCI, matchPrefixCI]
        have h1 : (Char.toLower ' ' == x) = false := by
          rw [beq_eq_false_iff_ne]
          intro he
          exact absurd (word_of_toLower_word ' ' x hx he) (by decide)
        have h2 : (c.toLower == x) = false := by
          rw [beq_eq_false_iff_ne]
          intro he
          exact absurd (word_of_toLower_word c x hx he) (by simp [hcw])
        rw [h1, h2]
        rfl
      · rw [(substSpaces_cons_nonspace c l' (by simpa using hc)).1,
          matchPrefixCI, matchPrefixCI]
        by_cases hbeq : (c.toLower == x) = true
        · rw [hbeq]
          exact ih (fun d hd => ha d (List.mem_cons_of_mem x hd)) l'
        · have hbf : (c.toLower == x) = false := by simpa using hbeq
          rw [hbf]
          rfl

theorem headIsWord_substSpaces (r : List Char) :
    headIsWord (substSpaces false r) = headIsWord r := by
  cases r with
  | nil => rfl
  | cons c r' =>
    by_cases hc : isSpaceChar c = true
    · rw [(substSpaces_cons_space c r' hc).1]
      show isWordChar ' ' = isWordChar c
      rw [space_nonword c hc]
      decide
    · rw [(substSpaces_cons_nonspace c r' (by simpa using hc)).1]
      rfl

theorem tryAlt_substSpaces (a : List Char) (ha : ∀ d ∈ a, isWordChar d = true)
    (l : List Char) :
    (tryAlt a true (substSpaces false l)).isSome = (tryAlt a true l).isSome := by
  rw [tryAlt, tryAlt, matchPrefixCI_substSpaces a ha l]
  rcases hm : matchPrefixCI a l with _ | r
  · rfl
  · show (if (true != headIsWord (substSpaces false r)) = true then
        some (substSpaces false r, true) else none).isSome =
      (if (true != headIsWord r) = true then some (r, true) else none).isSome
    rw [headIsWord_substSpaces r]
    by_cases hb : (true != headIsWord r) = true
    · rw [if_pos hb, if_pos hb]
      rfl
    · rw [if_neg hb, if_neg hb]

theorem wAltFires_substSpaces (l : List Char) :
    wAltFires (substSpaces false l) = wAltFires l := by
  rw [wAltFires, wAltFires,
    tryAlt_substSpaces ['s', 'l', 'u'] (by decide) l,
    tryAlt_substSpaces ['s', 'l'] (by decide) l,
    tryAlt_substSpaces ['s', 'a'] (by decide) l]

theorem scanCleanW_substSpaces :
    ∀ l : List Char,
      (∀ pw, scanCleanW pw l = true → scanCleanW pw (substSpaces false l) = true) ∧
      (scanCleanW false l = true → scanCleanW false (substSpaces true l) = true) := by
  intro l
  induction l with
  | nil => exact ⟨fun _ _ => rfl, fun _ => rfl⟩
  | cons c l' ih =>
    obtain ⟨ih1, ih2⟩ := ih
    by_cases hc : isSpaceChar c = true
    · have hcw : isWordChar c = false := space_nonword c hc
      have part1 : ∀ pw, scanCleanW pw (c :: l') = true →
          scanCleanW pw (substSpaces false (c :: l')) = true := by
        intro pw hs
        rw [scanCleanW, Bool.and_eq_true] at hs
        have htail : scanCleanW false l' = true := by
          have h2 := hs.2
          rwa [hcw] at h2
        rw [(substSpaces_cons_space c l' hc).1, scanCleanW, Bool.and_eq_true]
        refine ⟨?_, ?_⟩
        · have hwf := wAltFires_head_nonword ' ' (by decide) (substSpaces true l')
          simp [hwf]
        · show scanCleanW (isWordChar ' ') (substSpaces true l') = true
          rw [show isWordChar ' ' = false by decide]
          exact ih2 htail
      refine ⟨part1, ?_⟩
      intro hs
      rw [scanCleanW, Bool.and_eq_true] at hs
      have htail : scanCleanW false l' = true := by
        have h2 := hs.2
        rwa [hcw] at h2
      rw [(substSpaces_cons_space c l' hc).2]
      exact ih2 htail
    · have hcf : isSpaceChar c = false := by simpa using hc
      have part1 : ∀ pw, scanCleanW pw (c :: l') = true →
          scanCleanW pw (substSpaces false (c :: l')) = true := by
        intro pw hs
        rw [scanCleanW, Bool.and_eq_true] at hs
        rw [(substSpaces_cons_nonspace c l' hcf).1, scanCleanW, Bool.and_eq_true]
        refine ⟨?_, ih1 (isWordChar c) hs.2⟩
        by_cases hb : (pw != isWordChar c) = true
        · have hwf : wAltFires (c :: l') = false := by
            have hs1 := hs.1
            rw [Bool.or_eq_true] at hs1
            rcases hs1 with h1 | h1
            · exfalso
              rw [hb] at h1
              simp at h1
            · simpa using h1
          have heq : wAltFires (c :: substSpaces false l') = wAltFires (c :: l') := by
            rw [show c :: substSpaces false l' = substSpaces false (c :: l') from
              ((substSpaces_cons_nonspace c l' hcf).1).symm]
            exact wAltFires_substSpaces (c :: l')
          rw [heq]
          simp [hwf]
        · have hbf : (pw != isWordChar c) = false := by simpa using hb
          simp [hbf]
      refine ⟨part1, ?_⟩
      intro hs
      rw [show substSpaces true (c :: l') = substSpaces false (c :: l') from
        ((substSpaces_cons_nonspace c l' hcf).2).trans
          ((substSpaces_cons_nonspace c l' hcf).1).symm]
      exact part1 false hs


theorem matchPrefixCI_append :
    ∀ (a u r v : List Char), matchPrefixCI a u = some r →
      matchPrefixCI a (u ++ v) = some (r ++ v) := by
  intro a
  induction a with
  | nil => intro u r v h; cases h; rfl
  | cons x xs ih =>
    intro u r v h
    cases u with
    | nil => cases h
    | cons c u' =>
      rw [matchPrefixCI] at h
      rw [List.cons_append, matchPrefixCI]
      split at h
      · next hbeq =>
        rw [if_pos hbeq]
        exact ih u' r v h
      · cases h

theorem headIsWord_append_space (r v : List Char) (hv : ∀ c ∈ v, isSpaceChar c = true)
    (hr : headIsWord r = false) : headIsWord (r ++ v) = false := by
  cases r with
  | nil =>
    cases v with
    | nil => rfl
    | cons c v' =>
      exact space_nonword c (hv c (List.mem_cons_self c v'))
  | cons e r' => exact hr

theorem tryAlt_append_space (a u v : List Char) (hv : ∀ c ∈ v, isSpaceChar c = true)
    (h : (tryAlt a true u).isSome = true) : (tryAlt a true (u ++ v)).isSome = true := by
  rcases ht : tryAlt a true u with _ | ⟨r, w'⟩
  · rw [ht] at h
    cases h
  · obtain ⟨hw, hm, hb⟩ := tryAlt_sound a true u r w' ht
    have hr : headIsWord r = false := by
      cases hhr : headIsWord r
      · rfl
      · rw [hhr] at hb
        simp at hb
    rw [tryAlt, matchPrefixCI_append a u r v hm]
    show (if (true != headIsWord (r ++ v)) = true then some (r ++ v, true) else none).isSome =
      true
    rw [show headIsWord (r ++ v) = false from headIsWord_append_space r v hv hr]
    rfl

theorem wAltFires_append_space (u v : List Char) (hv : ∀ c ∈ v, isSpaceChar c = true)
    (h : wAltFires u = true) : wAltFires (u ++ v) = true := by
  rw [wAltFires, Bool.or_eq_true, Bool.or_eq_true] at h ⊢
  rcases h with (h | h) | h
  · exact Or.inl (Or.inl (tryAlt_append_space _ u v hv h))
  · exact Or.inl (Or.inr (tryAlt_append_space _ u v hv h))
  · exact Or.inr (tryAlt_append_space _ u v hv h)

theorem scanCleanW_append_space :
    ∀ (u : List Char) (b : Bool) (v : List Char), (∀ c ∈ v, isSpaceChar c = true) →
      scanCleanW b (u ++ v) = true → scanCleanW b u = true := by
  intro u
  induction u with
  | nil => intro b v _ _; rfl
  | cons c u' ih =>
    intro b v hv hs
    rw [List.cons_append, scanCleanW, Bool.and_eq_true] at hs
    rw [scanCleanW, Bool.and_eq_true]
    refine ⟨?_, ih (isWordChar c) v hv hs.2⟩
    have hs1 := hs.1
    rw [Bool.or_eq_true] at hs1 ⊢
    rcases hs1 with h1 | h1
    · exact Or.inl h1
    · refine Or.inr ?_
      rw [Bool.not_eq_true'] at h1 ⊢
      cases hf : wAltFires (c :: u')
      · rfl
      · have := wAltFires_append_space (c :: u') v hv hf
        rw [List.cons_append] at this
        rw [this] at h1
        cases h1

theorem scanCleanW_dropWhile :
    ∀ l : List Char, scanCleanW false l = true →
      scanCleanW false (l.dropWhile isSpaceChar) = true := by
  intro l
  induction l with
  | nil => intro _; rfl
  | cons c l' ih =>
    intro hs
    rw [scanCleanW, Bool.and_eq_true] at hs
    rw [List.dropWhile_cons]
    by_cases hc : isSpaceChar c = true
    · rw [if_pos hc]
      have htail : scanCleanW false l' = true := by
        have h2 := hs.2
        rwa [space_nonword c hc] at h2
      exact ih htail
    · rw [if_neg hc]
      rw [scanCleanW, Bool.and_eq_true]
      exact ⟨hs.1, hs.2⟩

theorem stripL_decomp (l : List Char) :
    l.dropWhile isSpaceChar =
      stripL l ++ (((l.dropWhile isSpaceChar).reverse.takeWhile isSpaceChar)).reverse := by
  rw [stripL]
  conv_lhs => rw [← List.reverse_reverse (l.dropWhile isSpaceChar)]
  conv_lhs => rw [← List.takeWhile_append_dropWhile isSpaceChar
    (l.dropWhile isSpaceChar).reverse]
  rw [List.reverse_append]

theorem scanCleanW_stripL (l : List Char) (hs : scanCleanW false l = true) :
    scanCleanW false (stripL l) = true := by
  have h1 := scanCleanW_dropWhile l hs
  rw [stripL_decomp l] at h1
  refine scanCleanW_append_space (stripL l) false _ ?_ h1
  intro c hc
  rw [List.mem_reverse] at hc
  exact List.mem_takeWhile_imp hc


/-! ## Shape of `normalize`'s output: characters, spacing, trimming -/

theorem subSuffix_subset :
    ∀ (n : Nat) (l : List Char), l.length ≤ n → ∀ (pw : Bool) (c : Char),
      c ∈ subSuffix pw l → c ∈ l := by
  intro n
  induction n with
  | zero =>
    intro l hl pw c hc
    have : l = [] := List.length_eq_zero.1 (Nat.le_zero.1 hl)
    subst this
    exact hc
  | succ n ih =>
    intro l hl pw c hc
    cases l with
    | nil => exact hc
    | cons d l' =>
      have hl' : l'.length ≤ n := by
        simp only [List.length_cons] at hl
        omega
      rw [subSuffix_cons] at hc
      rcases ht : tryAlts alts (d :: l') with _ | ⟨rest, w⟩ <;> rw [ht] at hc
      · split at hc <;>
          (rcases List.mem_cons.1 hc with he | he
           · exact he ▸ List.mem_cons_self d l'
           · exact List.mem_cons_of_mem d (ih l' hl' (isWordChar d) c he))
      · have hlen := tryAlts_length (d :: l') rest w ht
        split at hc
        · obtain ⟨p, hp, hpa⟩ := tryAlts_sound alts (d :: l') (rest, w) ht
          obtain ⟨_, hm, _⟩ := tryAlt_sound p.1 p.2 (d :: l') rest w hpa
          have hsuf := matchPrefixCI_suffix p.1 (d :: l') rest hm
          have : c ∈ rest := ih rest (by simp only [List.length_cons] at hlen; omega) w c hc
          exact hsuf.subset this
        · rcases List.mem_cons.1 hc with he | he
          · exact he ▸ List.mem_cons_self d l'
          · exact List.mem_cons_of_mem d (ih l' hl' (isWordChar d) c he)

theorem substPunct_mem :
    ∀ (l : List Char) (b : Bool) (c : Char), c ∈ substPunct b l →
      c = ' ' ∨ (c ∈ l ∧ isPunctChar c = false) := by
  intro l
  induction l with
  | nil => intro b c hc; cases hc
  | cons d l' ih =>
    intro b c hc
    by_cases hd : isPunctChar d = true
    · rcases b with _ | _
      · rw [(substPunct_cons_punct d l' hd).1] at hc
        rcases List.mem_cons.1 hc with he | he
        · exact Or.inl he
        · rcases ih true c he with h | h
          · exact Or.inl h
          · exact Or.inr ⟨List.mem_cons_of_mem d h.1, h.2⟩
      · rw [(substPunct_cons_punct d l' hd).2] at hc
        rcases ih true c hc with h | h
        · exact Or.inl h
        · exact Or.inr ⟨List.mem_cons_of_mem d h.1, h.2⟩
    · have hdf : isPunctChar d = false := by simpa using hd
      have hc' : c ∈ d :: substPunct false l' := by
        rcases b with _ | _
        · rwa [(substPunct_cons_nonpunct d l' hdf).1] at hc
        · rwa [(substPunct_cons_nonpunct d l' hdf).2] at hc
      rcases List.mem_cons.1 hc' with he | he
      · exact Or.inr ⟨he ▸ List.mem_cons_self d l', he ▸ hdf⟩
      · rcases ih false c he with h | h
        · exact Or.inl h
        · exact Or.inr ⟨List.mem_cons_of_mem d h.1, h.2⟩

theorem substSpaces_mem :
    ∀ (l : List Char) (b : Bool) (c : Char), c ∈ substSpaces b l →
      c = ' ' ∨ (c ∈ l ∧ isSpaceChar c = false) := by
  intro l
  induction l with
  | nil => intro b c hc; cases hc
  | cons d l' ih =>
    intro b c hc
    by_cases hd : isSpaceChar d = true
    · rcases b with _ | _
      · rw [(substSpaces_cons_space d l' hd).1] at hc
        rcases List.mem_cons.1 hc with he | he
        · exact Or.inl he
        · rcases ih true c he with h | h
          · exact Or.inl h
          · exact Or.inr ⟨List.mem_cons_of_mem d h.1, h.2⟩
      · rw [(substSpaces_cons_space d l' hd).2] at hc
        rcases ih true c hc with h | h
        · exact Or.inl h
        · exact Or.inr ⟨List.mem_cons_of_mem d h.1, h.2⟩
    · have hdf : isSpaceChar d = false := by simpa using hd
      have hc' : c ∈ d :: substSpaces false l' := by
        rcases b with _ | _
        · rwa [(substSpaces_cons_nonspace d l' hdf).1] at hc
        · rwa [(substSpaces_cons_nonspace d l' hdf).2] at hc
      rcases List.mem_cons.1 hc' with he | he
      · exact Or.inr ⟨he ▸ List.mem_cons_self d l', he ▸ hdf⟩
      · rcases ih false c he with h | h
        · exact Or.inl h
        · exact Or.inr ⟨List.mem_cons_of_mem d h.1, h.2⟩

theorem stripL_subset (l : List Char) (c : Char) (hc : c ∈ stripL l) : c ∈ l := by
  rw [stripL, List.mem_reverse] at hc
  have h1 := (@List.dropWhile_sublist Char (l.dropWhile isSpaceChar).reverse
    isSpaceChar).subset hc
  rw [List.mem_reverse] at h1
  exact (@List.dropWhile_sublist Char l isSpaceChar).subset h1

theorem singleSpaced_tail (c : Char) (l : List Char)
    (h : singleSpaced (c :: l) = true) : singleSpaced l = true := by
  cases l with
  | nil => rfl
  | cons d t =>
    rw [singleSpaced, Bool.and_eq_true] at h
    exact h.2

theorem substSpaces_true_headNotSpace :
    ∀ l : List Char, headNotSpace (substSpaces true l) = true := by
  intro l
  induction l with
  | nil => rfl
  | cons c l' ih =>
    by_cases hc : isSpaceChar c = true
    · rw [(substSpaces_cons_space c l' hc).2]
      exact ih
    · have hcf : isSpaceChar c = false := by simpa using hc
      rw [(substSpaces_cons_nonspace c l' hcf).2]
      show (!isSpaceChar c) = true
      rw [hcf]
      rfl

theorem substSpaces_singleSpaced :
    ∀ (l : List Char) (b : Bool), singleSpaced (substSpaces b l) = true := by
  intro l
  induction l with
  | nil => intro b; rfl
  | cons c l' ih =>
    intro b
    by_cases hc : isSpaceChar c = true
    · rcases b with _ | _
      · rw [(substSpaces_cons_space c l' hc).1]
        rcases hX : substSpaces true l' with _ | ⟨d, t⟩
        · rfl
        · have hd : isSpaceChar d = false := by
            have := substSpaces_true_headNotSpace l'
            rw [hX] at this
            simpa [headNotSpace] using this
          rw [singleSpaced, Bool.and_eq_true]
          refine ⟨by simp [hd], ?_⟩
          rw [← hX]
          exact ih true
      · rw [(substSpaces_cons_space c l' hc).2]
        exact ih true
    · have hcf : isSpaceChar c = false := by simpa using hc
      rcases b with _ | _ <;>
        [rw [(substSpaces_cons_nonspace c l' hcf).1];
         rw [(substSpaces_cons_nonspace c l' hcf).2]] <;>
        (rcases hX : substSpaces false l' with _ | ⟨d, t⟩
         · rfl
         · rw [singleSpaced, Bool.and_eq_true]
           refine ⟨by simp [hcf], ?_⟩
           rw [← hX]
           exact ih false)

theorem singleSpaced_append_right :
    ∀ (u v : List Char), singleSpaced (u ++ v) = true → singleSpaced v = true := by
  intro u
  induction u with
  | nil => intro v h; exact h
  | cons c u' ih =>
    intro v h
    rw [List.cons_append] at h
    exact ih v (singleSpaced_tail c (u' ++ v) h)

theorem singleSpaced_append_left :
    ∀ (u v : List Char), singleSpaced (u ++ v) = true → singleSpaced u = true := by
  intro u
  induction u with
  | nil => intro v _; rfl
  | cons c u' ih =>
    intro v h
    cases u' with
    | nil => rfl
    | cons d t =>
      rw [List.cons_append, List.cons_append, singleSpaced, Bool.and_eq_true] at h
      rw [singleSpaced, Bool.and_eq_true]
      refine ⟨h.1, ?_⟩
      have := ih v (by rw [List.cons_append]; exact h.2)
      exact this


theorem substPunct_id :
    ∀ l : List Char, (∀ c ∈ l, isPunctChar c = false) → substPunct false l = l := by
  intro l
  induction l with
  | nil => intro _; rfl
  | cons c l' ih =>
    intro h
    have hc := h c (List.mem_cons_self c l')
    rw [(substPunct_cons_nonpunct c l' hc).1,
      ih fun d hd => h d (List.mem_cons_of_mem c hd)]

theorem substSpaces_fix :
    ∀ l : List Char, singleSpaced l = true → (∀ c ∈ l, isSpaceChar c = true → c = ' ') →
      substSpaces false l = l := by
  intro l
  induction l with
  | nil => intro _ _; rfl
  | cons c l' ih =>
    intro hss hmem
    have htail := ih (singleSpaced_tail c l' hss)
      fun d hd hsp => hmem d (List.mem_cons_of_mem c hd) hsp
    by_cases hc : isSpaceChar c = true
    · have hce : c = ' ' := hmem c (List.mem_cons_self c l') hc
      rw [(substSpaces_cons_space c l' hc).1, hce]
      cases l' with
      | nil => rfl
      | cons d t =>
        have hd : isSpaceChar d = false := by
          rw [singleSpaced, Bool.and_eq_true] at hss
          have h1 := hss.1
          rw [hc] at h1
          cases hdd : isSpaceChar d
          · rfl
          · rw [hdd] at h1
            simp at h1
        rw [(substSpaces_cons_nonspace d t hd).2]
        rw [(substSpaces_cons_nonspace d t hd).1] at htail
        rw [List.cons.injEq] at htail
        rw [htail.2]
    · have hcf : isSpaceChar c = false := by simpa using hc
      rw [(substSpaces_cons_nonspace c l' hcf).1, htail]

theorem dropWhile_headNotSpace :
    ∀ l : List Char, headNotSpace (l.dropWhile isSpaceChar) = true := by
  intro l
  induction l with
  | nil => rfl
  | cons c l' ih =>
    rw [List.dropWhile_cons]
    by_cases hc : isSpaceChar c = true
    · rw [if_pos hc]
      exact ih
    · rw [if_neg hc]
      show (!isSpaceChar c) = true
      cases hcc : isSpaceChar c
      · rfl
      · exact absurd hcc hc

theorem dropWhile_of_headNotSpace (l : List Char) (h : headNotSpace l = true) :
    l.dropWhile isSpaceChar = l := by
  cases l with
  | nil => rfl
  | cons c l' =>
    rw [List.dropWhile_cons, if_neg]
    intro hc
    rw [headNotSpace, hc] at h
    cases h

theorem stripL_id (l : List Char) (h1 : headNotSpace l = true)
    (h2 : headNotSpace l.reverse = true) : stripL l = l := by
  rw [stripL, dropWhile_of_headNotSpace l h1, dropWhile_of_headNotSpace l.reverse h2,
    List.reverse_reverse]

theorem stripL_reverse_headNotSpace (l : List Char) :
    headNotSpace (stripL l).reverse = true := by
  rw [stripL, List.reverse_reverse]
  exact dropWhile_headNotSpace _

theorem stripL_headNotSpace (l : List Char) : headNotSpace (stripL l) = true := by
  have hdec := stripL_decomp l
  have hX := dropWhile_headNotSpace l
  rcases hs : stripL l with _ | ⟨c, t⟩
  · rfl
  · rw [hs] at hdec
    rw [hdec, List.cons_append] at hX
    exact hX

theorem singleSpaced_stripL (l : List Char) (h : singleSpaced l = true) :
    singleSpaced (stripL l) = true := by
  have hsplit : l = l.takeWhile isSpaceChar ++ l.dropWhile isSpaceChar :=
    (List.takeWhile_append_dropWhile isSpaceChar l).symm
  have h1 : singleSpaced (l.dropWhile isSpaceChar) = true := by
    refine singleSpaced_append_right (l.takeWhile isSpaceChar) _ ?_
    rw [← hsplit]
    exact h
  rw [stripL_decomp l] at h1
  exact singleSpaced_append_left _ _ h1

theorem map_toLower_eq_self (l : List Char) (h : ∀ c ∈ l, c.toLower = c) :
    l.map Char.toLower = l := by
  induction l with
  | nil => rfl
  | cons c l' ih =>
    rw [List.map_cons, h c (List.mem_cons_self c l'),
      ih fun d hd => h d (List.mem_cons_of_mem c hd)]


/-! ## A clean string is a fixed point of the suffix scan -/

theorem matchPrefixCI_dot_none (a' : List Char) (c : Char) (l' : List Char)
    (hnd : ∀ d ∈ l', d ≠ '.') :
    matchPrefixCI ('s' :: '.' :: a') (c :: l') = none := by
  rw [matchPrefixCI]
  by_cases hc : (c.toLower == 's') = true
  · rw [if_pos hc]
    cases l' with
    | nil => rfl
    | cons d l'' =>
      rw [matchPrefixCI, if_neg]
      intro hd
      exact hnd d (List.mem_cons_self d l'')
        (eq_of_toLower_eq_low d '.' (by decide) (beq_iff_eq.1 hd))
  · rw [if_neg hc]

theorem tryAlt_dot_none (a' : List Char) (w : Bool) (c : Char) (l' : List Char)
    (hnd : ∀ d ∈ l', d ≠ '.') :
    tryAlt ('s' :: '.' :: a') w (c :: l') = none := by
  rw [tryAlt, matchPrefixCI_dot_none a' c l' hnd]

theorem tryAlts_none_of_clean (c : Char) (l' : List Char)
    (hnd : ∀ d ∈ c :: l', d ≠ '.') (hwf : wAltFires (c :: l') = false) :
    tryAlts alts (c :: l') = none := by
  have hnd' : ∀ d ∈ l', d ≠ '.' := fun d hd => hnd d (List.mem_cons_of_mem c hd)
  have hw1 : tryAlt ['s', 'l', 'u'] true (c :: l') = none := by
    rcases h : tryAlt ['s', 'l', 'u'] true (c :: l') with _ | r
    · rfl
    · rw [wAltFires, h] at hwf
      simp at hwf
  have hw2 : tryAlt ['s', 'l'] true (c :: l') = none := by
    rcases h : tryAlt ['s', 'l'] true (c :: l') with _ | r
    · rfl
    · rw [wAltFires, h] at hwf
      simp at hwf
  have hw3 : tryAlt ['s', 'a'] true (c :: l') = none := by
    rcases h : tryAlt ['s', 'a'] true (c :: l') with _ | r
    · rfl
    · rw [wAltFires, h] at hwf
      simp at hwf
  refine (tryAlts_none_iff alts (c :: l')).2 ?_
  intro p hp
  fin_cases hp
  · exact tryAlt_dot_none ['l', '.', 'u', '.'] false c l' hnd'
  · exact hw1
  · exact tryAlt_dot_none ['l', '.'] false c l' hnd'
  · exact hw2
  · exact tryAlt_dot_none ['a', '.'] false c l' hnd'
  · exact hw3

theorem subSuffix_fix :
    ∀ (n : Nat) (l : List Char), l.length ≤ n → (∀ c ∈ l, c ≠ '.') → ∀ pw,
      scanCleanW pw l = true → subSuffix pw l = l := by
  intro n
  induction n with
  | zero =>
    intro l hl _ pw _
    have : l = [] := List.length_eq_zero.1 (Nat.le_zero.1 hl)
    subst this
    rfl
  | succ n ih =>
    intro l hl hnd pw hs
    cases l with
    | nil => rfl
    | cons c l' =>
      have hl' : l'.length ≤ n := by
        simp only [List.length_cons] at hl
        omega
      rw [scanCleanW, Bool.and_eq_true] at hs
      have htail : subSuffix (isWordChar c) l' = l' :=
        ih l' hl' (fun d hd => hnd d (List.mem_cons_of_mem c hd)) (isWordChar c) hs.2
      rw [subSuffix_cons]
      by_cases hb : (pw != isWordChar c) = true
      · have hwf : wAltFires (c :: l') = false := by
          have hs1 := hs.1
          rw [Bool.or_eq_true] at hs1
          rcases hs1 with h1 | h1
          · exfalso
            rw [hb] at h1
            simp at h1
          · simpa using h1
        rw [tryAlts_none_of_clean c l' hnd hwf, if_pos hb]
        show c :: subSuffix (isWordChar c) l' = c :: l'
        rw [htail]
      · rw [if_neg hb, htail]

/-! ## Idempotence of `normalize` on underscore-free strings -/

theorem normalizeL_idem (l : List Char) (hu : '_' ∉ l) :
    normalizeL (normalizeL l) = normalizeL l := by
  have huz : '_' ∉ subSuffix false (l.map Char.toLower) := by
    intro hmem
    have h1 := subSuffix_subset (l.map Char.toLower).length _ le_rfl false '_' hmem
    rw [List.mem_map] at h1
    obtain ⟨c, hc, hlow⟩ := h1
    exact hu ((eq_of_toLower_eq_low c '_' (by decide) hlow) ▸ hc)
  have hsc0 : scanCleanW false (subSuffix false (l.map Char.toLower)) = true :=
    scanCleanW_subSuffix_self false (l.map Char.toLower)
  have hsc1 : scanCleanW false
      (substPunct false (subSuffix false (l.map Char.toLower))) = true :=
    (scanCleanW_substPunct _ huz).1 false hsc0
  have hsc2 := (scanCleanW_substSpaces
    (substPunct false (subSuffix false (l.map Char.toLower)))).1 false hsc1
  have hscy : scanCleanW false (normalizeL l) = true := by
    rw [normalizeL]
    exact scanCleanW_stripL _ hsc2
  have hymem : ∀ c ∈ normalizeL l, c = ' ' ∨ ∃ d ∈ l, d.toLower = c := by
    intro c hc
    rw [normalizeL] at hc
    have h1 := stripL_subset _ c hc
    rcases substSpaces_mem _ false c h1 with he | ⟨h2, _⟩
    · exact Or.inl he
    rcases substPunct_mem _ false c h2 with he | ⟨h3, _⟩
    · exact Or.inl he
    have h4 := subSuffix_subset (l.map Char.toLower).length _ le_rfl false c h3
    rw [List.mem_map] at h4
    obtain ⟨d, hd, he⟩ := h4
    exact Or.inr ⟨d, hd, he⟩
  have hlower : ∀ c ∈ normalizeL l, c.toLower = c := by
    intro c hc
    rcases hymem c hc with he | ⟨d, _, he⟩
    · rw [he]; decide
    · rw [← he]; exact toLower_idem d
  have hnopunct : ∀ c ∈ normalizeL l, isPunctChar c = false := by
    intro c hc
    rw [normalizeL] at hc
    have h1 := stripL_subset _ c hc
    rcases substSpaces_mem _ false c h1 with he | ⟨h2, _⟩
    · rw [he]; decide
    rcases substPunct_mem _ false c h2 with he | ⟨_, hp⟩
    · rw [he]; decide
    · exact hp
  have hnodot : ∀ c ∈ normalizeL l, c ≠ '.' := by
    intro c hc he
    have hp := hnopunct c hc
    rw [he] at hp
    exact absurd hp (by decide)
  have hspaces : ∀ c ∈ normalizeL l, isSpaceChar c = true → c = ' ' := by
    intro c hc hsp
    rw [normalizeL] at hc
    have h1 := stripL_subset _ c hc
    rcases substSpaces_mem _ false c h1 with he | ⟨_, hns⟩
    · exact he
    · rw [hns] at hsp
      cases hsp
  have hss : singleSpaced (normalizeL l) = true := by
    rw [normalizeL]
    exact singleSpaced_stripL _ (substSpaces_singleSpaced _ false)
  show stripL (substSpaces false (substPunct false
    (subSuffix false ((normalizeL l).map Char.toLower)))) = normalizeL l
  rw [map_toLower_eq_self _ hlower,
    subSuffix_fix (normalizeL l).length _ le_rfl hnodot false hscy,
    substPunct_id _ hnopunct,
    substSpaces_fix _ hss hspaces]
  exact stripL_id _ (by rw [normalizeL]; exact stripL_headNotSpace _)
    (by rw [normalizeL]; exact stripL_reverse_headNotSpace _)

/-- C6 amended: `normalize` is idempotent on every string that does not
contain an underscore.  (The underscore is the only character that is both
a word character for the suffix regex's `\b` and a member of the
punctuation class, which is what breaks idempotence in general.) -/
theorem normalize_idempotent_no_underscore (x : String) (h : '_' ∉ x.data) :
    normalize (normalize x) = normalize x := by
  show String.mk (normalizeL (String.mk (normalizeL x.data)).data) =
    String.mk (normalizeL x.data)
  rw [show (String.mk (normalizeL x.data)).data = normalizeL x.data from rfl,
    normalizeL_idem x.data h]

/-- Witness for the amended C6 at a concrete underscore-free input. -/
theorem normalize_idempotent_no_underscore_witness :
    normalize (normalize "Acme, S.L.") = normalize "Acme, S.L." :=
  normalize_idempotent_no_underscore "Acme, S.L." (by decide)

end EnviosMasivos

